import Mathlib

/-!
Verification of the cross-language source-tool locator and patcher of
`mcp_manager.py` (universal-mcp-admin).

Source buffers are modelled as `List Char` (`Str`), with Python's
`str.splitlines` / `'\n'.join` semantics made explicit.  Regex searches
from the source are embedded as token-list matchers with full
backtracking (existential semantics, matching `re.search` on the
patterns actually used).  External processes (the `ast` module, `node`)
are parameters of the functions that invoke them, mirroring the
tuple-valued Python wrappers in the source.
-/

namespace MCP

/-- Characters of a Python string. -/
abbrev Str := List Char

/-- Coerce a Lean string literal to the character-list model. -/
def chars (s : String) : Str := s.data

/-- Whether `p` is a prefix of `cs` (Python `str.startswith`, list form). -/
def strStarts : Str → Str → Bool
  | [], _ => true
  | _ :: _, [] => false
  | p :: ps, c :: cs => p = c && strStarts ps cs

/-- Whether `p` occurs as a contiguous substring of `cs` (Python `in`). -/
def occursSub (p : Str) : Str → Bool
  | [] => strStarts p []
  | c :: r => strStarts p (c :: r) || occursSub p r

/-- Python whitespace characters recognised by `\s`, `strip` and `lstrip`
(line content never contains a newline after `splitlines`, but the class
keeps `'\n'` for fidelity to the regexes that run on whole files). -/
def isPyWS (c : Char) : Bool :=
  c = ' ' || c = '\t' || c = '\n' || c = '\r' || c = '\x0b' || c = '\x0c'

/-- Word characters of the regex class `\w` over ASCII input. -/
def isWordChar (c : Char) : Bool :=
  c.isAlpha || c.isDigit || c = '_'

/-- Drop leading whitespace (Python `str.lstrip`). -/
def dropWS : Str → Str
  | [] => []
  | c :: r => if isPyWS c then dropWS r else c :: r

/-- Python `len(line) - len(line.lstrip())`: the indentation width. -/
def indentOf : Str → Nat
  | [] => 0
  | c :: r => if isPyWS c then indentOf r + 1 else 0

/-- Python `str.strip`. -/
def stripStr (l : Str) : Str :=
  ((dropWS l.reverse).reverse : Str) |> dropWS

/-- Python `str.splitlines` restricted to `'\n'` separators. -/
def splitLines : Str → List Str
  | [] => []
  | c :: r =>
    if c = '\n' then [] :: splitLines r
    else
      match splitLines r with
      | [] => [[c]]
      | l :: ls => (c :: l) :: ls

/-- Suffix of `'\n'.join`: prepend a newline before every element. -/
def joinAux : List Str → Str
  | [] => []
  | l :: ls => '\n' :: (l ++ joinAux ls)

/-- Python `'\n'.join(lines)`. -/
def joinLines : List Str → Str
  | [] => []
  | l :: ls => l ++ joinAux ls

/-- Python slice `lines[s:e]`. -/
def slice (lines : List Str) (s e : Nat) : List Str :=
  (lines.drop s).take (e - s)

/-- Indexing with Python's guarded bounds (defaults never observed). -/
def getLine (lines : List Str) (i : Nat) : Str :=
  (lines.get? i).getD []

/-- Content of the first line of a raw buffer. -/
def firstLine : Str → Str
  | [] => []
  | c :: r => if c = '\n' then [] else c :: firstLine r

/-- Last character of a raw buffer, if any. -/
def lastChar : Str → Option Char
  | [] => none
  | [c] => some c
  | _ :: c :: r => lastChar (c :: r)

/-- The non-empty lines of a line list. -/
def neFilter (m : List Str) : List Str :=
  m.filter (fun l => !l.isEmpty)

/-- Drop a final empty element, mirroring what `splitlines ∘ join` loses. -/
def dropFinalEmpty : List Str → List Str
  | [] => []
  | [l] => if l.isEmpty then [] else [l]
  | l :: ls => l :: dropFinalEmpty ls

/-- Tokens of the regex fragment used by the source's patterns: literal
runs, a single class character, an optional class character, an optional
literal, and star/plus over a character class. -/
inductive RTok where
  | lit : Str → RTok
  | one : (Char → Bool) → RTok
  | optc : (Char → Bool) → RTok
  | optl : Str → RTok
  | star : (Char → Bool) → RTok
  | plus : (Char → Bool) → RTok

/-- Backtracking anchored match of a token sequence at the head of `cs`
(existential semantics, as `re` backtracking gives for these patterns).
Fuelled so that it reduces definitionally; `toks.length + cs.length + 1`
always suffices because every call shrinks that sum. -/
def rmatchF : Nat → List RTok → Str → Bool
  | 0, _, _ => false
  | _ + 1, [], _ => true
  | fuel + 1, .lit p :: ts, cs =>
    strStarts p cs && rmatchF fuel ts (cs.drop p.length)
  | fuel + 1, .one f :: ts, cs =>
    match cs with
    | [] => false
    | c :: r => f c && rmatchF fuel ts r
  | fuel + 1, .optc f :: ts, cs =>
    rmatchF fuel ts cs ||
      (match cs with
       | [] => false
       | c :: r => f c && rmatchF fuel ts r)
  | fuel + 1, .optl p :: ts, cs =>
    rmatchF fuel ts cs || (strStarts p cs && rmatchF fuel ts (cs.drop p.length))
  | fuel + 1, .star f :: ts, cs =>
    rmatchF fuel ts cs ||
      (match cs with
       | [] => false
       | c :: r => f c && rmatchF fuel (.star f :: ts) r)
  | fuel + 1, .plus f :: ts, cs =>
    match cs with
    | [] => false
    | c :: r => f c && rmatchF fuel (.star f :: ts) r

/-- Anchored match with sufficient fuel. -/
def rmatch (ts : List RTok) (cs : Str) : Bool :=
  rmatchF (ts.length + cs.length + 1) ts cs

/-- Unanchored search (Python `re.search`), fuelled structurally. -/
def rsearchF : Nat → List RTok → Str → Bool
  | 0, _, _ => false
  | fuel + 1, ts, cs =>
    rmatch ts cs ||
      (match cs with
       | [] => false
       | _ :: r => rsearchF fuel ts r)

/-- Unanchored search with sufficient fuel. -/
def rsearch (ts : List RTok) (cs : Str) : Bool :=
  rsearchF (cs.length + 1) ts cs

/-- Quote class `["\']`. -/
def isQuote (c : Char) : Bool := c = '"' || c = '\''

/-- Pattern `def\s+NAME\s*\(` from `_find_python_tool`. -/
def pyDefToks (name : Str) : List RTok :=
  [.lit (chars "def"), .plus isPyWS, .lit name, .star isPyWS, .lit (chars "(")]

/-- Line test for the Python definition pattern. -/
def pyDefMatch (name l : Str) : Bool := rsearch (pyDefToks name) l

/-- Pattern `def\s+(?:self\.)?NAME\s*[\((\n]` from `_find_ruby_tool`:
the class after the name accepts only `'('` or a literal newline. -/
def rubyDefToks (name : Str) : List RTok :=
  [.lit (chars "def"), .plus isPyWS, .optl (chars "self."), .lit name,
   .star isPyWS, .one (fun c => c = '(' || c = '\n')]

/-- Pattern `function\s+NAME\s*[\((\n]` from `_find_julia_tool`. -/
def juliaDefToks (name : Str) : List RTok :=
  [.lit (chars "function"), .plus isPyWS, .lit name, .star isPyWS,
   .one (fun c => c = '(' || c = '\n')]

/-- Pattern `(?:export\s+)?(?:async\s+)?function\s+NAME\s*\(` reduced to
its search-equivalent mandatory core. -/
def jsFunctionToks (name : Str) : List RTok :=
  [.lit (chars "function"), .plus isPyWS, .lit name, .star isPyWS,
   .lit (chars "(")]

/-- Pattern `(?:const|let|var)\s+NAME\s*=` from `_find_js_tool`. -/
def jsConstToks (name : Str) : List RTok :=
  [.lit (chars "const"), .plus isPyWS, .lit name, .star isPyWS,
   .lit (chars "=")]

def jsLetToks (name : Str) : List RTok :=
  [.lit (chars "let"), .plus isPyWS, .lit name, .star isPyWS, .lit (chars "=")]

def jsVarToks (name : Str) : List RTok :=
  [.lit (chars "var"), .plus isPyWS, .lit name, .star isPyWS, .lit (chars "=")]

/-- Line test for the second `_find_js_tool` pattern. -/
def jsConstMatch (name l : Str) : Bool :=
  rsearch (jsConstToks name) l || rsearch (jsLetToks name) l ||
    rsearch (jsVarToks name) l

/-- Pattern `fn\s+NAME\s*\(` (search-equivalent core of the Rust and Zig
patterns, whose `pub`/`async` prefixes are optional). -/
def fnToks (name : Str) : List RTok :=
  [.lit (chars "fn"), .plus isPyWS, .lit name, .star isPyWS, .lit (chars "(")]

/-- Pattern `\w+\s+NAME\s*\(` (search-equivalent core of the C/C++,
Java, C#, Dart and D patterns). -/
def wordDefToks (name : Str) : List RTok :=
  [.plus isWordChar, .plus isPyWS, .lit name, .star isPyWS, .lit (chars "(")]

/-- Pattern `func\s+NAME\s*\(` (Swift, and the receiverless Go form). -/
def funcToks (name : Str) : List RTok :=
  [.lit (chars "func"), .plus isPyWS, .lit name, .star isPyWS,
   .lit (chars "(")]

/-- Go receiver alternative `func\s+\([^)]*\)\s+NAME\s*\(`. -/
def goRecvToks (name : Str) : List RTok :=
  [.lit (chars "func"), .plus isPyWS, .lit (chars "("),
   .star (fun c => c ≠ ')'), .lit (chars ")"), .plus isPyWS, .lit name,
   .star isPyWS, .lit (chars "(")]

/-- Line test for the Go pattern (optional receiver group). -/
def goDefMatch (name l : Str) : Bool :=
  rsearch (funcToks name) l || rsearch (goRecvToks name) l

/-- Pattern `fun\s+NAME\s*\(` (Kotlin). -/
def funToks (name : Str) : List RTok :=
  [.lit (chars "fun"), .plus isPyWS, .lit name, .star isPyWS, .lit (chars "(")]

/-- Pattern `function\s+NAME\s*\(` (PHP, Lua). -/
def functionToks (name : Str) : List RTok :=
  [.lit (chars "function"), .plus isPyWS, .lit name, .star isPyWS,
   .lit (chars "(")]

/-- Pattern `local\s+function\s+NAME\s*\(` (second Lua alternative). -/
def luaLocalToks (name : Str) : List RTok :=
  [.lit (chars "local"), .plus isPyWS, .lit (chars "function"), .plus isPyWS,
   .lit name, .star isPyWS, .lit (chars "(")]

/-- Pattern `def\s+NAME\s*[\(\[]` (Scala). -/
def scalaDefToks (name : Str) : List RTok :=
  [.lit (chars "def"), .plus isPyWS, .lit name, .star isPyWS,
   .one (fun c => c = '(' || c = '[')]

/-- Pattern `def[p]?\s+NAME\s*[\(,\s]` (Elixir). -/
def elixirDefToks (name : Str) : List RTok :=
  [.lit (chars "def"), .optc (fun c => c = 'p'), .plus isPyWS, .lit name,
   .star isPyWS, .one (fun c => c = '(' || c = ',' || isPyWS c)]

/-- Pattern `let\s+NAME\s` (OCaml; note the mandatory trailing space). -/
def ocamlLetToks (name : Str) : List RTok :=
  [.lit (chars "let"), .plus isPyWS, .lit name, .one isPyWS]

/-- Pattern `(?:proc|func)\s+NAME\s*[\(\*]` (Nim). -/
def nimProcToks (name : Str) : List RTok :=
  [.lit (chars "proc"), .plus isPyWS, .lit name, .star isPyWS,
   .one (fun c => c = '(' || c = '*')]

def nimFuncToks (name : Str) : List RTok :=
  [.lit (chars "func"), .plus isPyWS, .lit name, .star isPyWS,
   .one (fun c => c = '(' || c = '*')]

/-- Line test for the Nim pattern. -/
def nimDefMatch (name l : Str) : Bool :=
  rsearch (nimProcToks name) l || rsearch (nimFuncToks name) l

/-- Pattern `sub\s+NAME\s*[\(\s]` / `method\s+NAME\s*[\(\s]` (Raku). -/
def rakuSubToks (name : Str) : List RTok :=
  [.lit (chars "sub"), .plus isPyWS, .lit name, .star isPyWS,
   .one (fun c => c = '(' || isPyWS c)]

def rakuMethodToks (name : Str) : List RTok :=
  [.lit (chars "method"), .plus isPyWS, .lit name, .star isPyWS,
   .one (fun c => c = '(' || isPyWS c)]

/-- Line test for the Raku pattern. -/
def rakuDefMatch (name l : Str) : Bool :=
  rsearch (rakuSubToks name) l || rsearch (rakuMethodToks name) l

/-- Anchored Haskell header test: `^NAME\s+::` or `^NAME\s+` (the second
subsumes the first under `re.match`). -/
def haskellDefMatch (name l : Str) : Bool :=
  rmatch [.lit name, .plus isPyWS, .lit (chars "::")] l ||
    rmatch [.lit name, .plus isPyWS] l

/-- First pattern of `check_tool_exists`:
`@\w+\.tool\(\s*["\']?NAME["\']?`. -/
def pyExistsToks1 (name : Str) : List RTok :=
  [.lit (chars "@"), .plus isWordChar, .lit (chars ".tool("), .star isPyWS,
   .optc isQuote, .lit name, .optc isQuote]

/-- Second pattern of `check_tool_exists`:
`@\w+\.tool\(\)\s*\n\s*def\s+NAME\s*\(` (spans a line break). -/
def pyExistsToks2 (name : Str) : List RTok :=
  [.lit (chars "@"), .plus isWordChar, .lit (chars ".tool()"), .star isPyWS,
   .lit (chars "\n"), .star isPyWS, .lit (chars "def"), .plus isPyWS,
   .lit name, .star isPyWS, .lit (chars "(")]

/-- Third pattern of `check_tool_exists`: `def\s+NAME\s*\([^)]*\)\s*->`. -/
def pyExistsToks3 (name : Str) : List RTok :=
  [.lit (chars "def"), .plus isPyWS, .lit name, .star isPyWS, .lit (chars "("),
   .star (fun c => c ≠ ')'), .lit (chars ")"), .star isPyWS,
   .lit (chars "->")]

/-- The duplicate probe `check_tool_exists` of the Python handler: any of
the three decorated / annotated definition shapes somewhere in the file. -/
def checkToolExists (source name : Str) : Bool :=
  rsearch (pyExistsToks1 name) source || rsearch (pyExistsToks2 name) source ||
    rsearch (pyExistsToks3 name) source

/-- The duplicate probe `check_tool_exists_javascript`. -/
def checkToolExistsJavascript (source name : Str) : Bool :=
  rsearch [.lit (chars ".tool("), .optc isQuote, .lit name, .optc isQuote]
      source ||
    rsearch [.lit (chars "name:"), .star isPyWS, .one isQuote, .lit name,
      .one isQuote] source ||
    rsearch (jsFunctionToks name) source ||
    rsearch [.lit (chars "const"), .plus isPyWS, .lit name, .star isPyWS,
      .lit (chars "=")] source ||
    rsearch [.lit (chars "async"), .plus isPyWS, .lit (chars "function"),
      .plus isPyWS, .lit name, .star isPyWS, .lit (chars "(")] source

/-- Index of the first line satisfying `p` (the `for i, line in enumerate`
scans of the finders). -/
def firstMatch (p : Str → Bool) : List Str → Option Nat
  | [] => none
  | l :: ls => if p l then some 0 else (firstMatch p ls).map (· + 1)

/-- Backward walk of the finders: while `start > 0` and the previous line
satisfies `p`, decrement `start`. -/
def walkBack (p : Str → Bool) (lines : List Str) : Nat → Nat
  | 0 => 0
  | s + 1 => if p (getLine lines s) then walkBack p lines s else s + 1

/-- Forward indentation scan of `_find_python_tool` / `_find_nim_tool`:
skip blank lines, stop at the first non-blank line whose indentation is
not greater than the header's. -/
def indentEndScan (h : Nat) : List Str → Nat → Nat
  | [], e => e
  | l :: rest, e =>
    if (stripStr l).isEmpty then indentEndScan h rest (e + 1)
    else if indentOf l ≤ h then e
    else indentEndScan h rest (e + 1)

/-- Trailing-blank-line trim: while `end > lo` and line `end - 1` strips
to empty, decrement `end`. -/
def trimBlank (lines : List Str) (lo : Nat) : Nat → Nat
  | 0 => 0
  | e + 1 =>
    if lo < e + 1 && (stripStr (getLine lines e)).isEmpty then
      trimBlank lines lo e
    else e + 1

/-- Character scan of one line in `_find_brace_end`: `none` means the
depth returned to zero after an opening brace (the block ends here). -/
def braceScanLine : Str → Int → Bool → Option (Int × Bool)
  | [], d, f => some (d, f)
  | c :: cs, d, f =>
    if c = '{' then braceScanLine cs (d + 1) true
    else if c = '}' then
      if f && d - 1 = 0 then none else braceScanLine cs (d - 1) f
    else braceScanLine cs d f

/-- Line loop of `_find_brace_end` over the suffix starting at index `i`;
`total` is the full line count, returned when no close is found. -/
def braceEndAux : List Str → Nat → Int → Bool → Nat → Nat
  | [], _, _, _, total => total
  | l :: rest, i, d, f, total =>
    match braceScanLine l d f with
    | none => i + 1
    | some (d', f') => braceEndAux rest (i + 1) d' f' total

/-- The helper `_find_brace_end(lines, start_line)`. -/
def findBraceEnd (lines : List Str) (i : Nat) : Nat :=
  braceEndAux (lines.drop i) i 0 false lines.length

/-- Forward scan of `_find_ruby_tool`: advance to just past the first
line that strips to `end` at indentation not greater than the header's. -/
def rubyEndScan (h : Nat) : List Str → Nat → Nat
  | [], e => e
  | l :: rest, e =>
    if stripStr l = chars "end" && indentOf l ≤ h then e + 1
    else rubyEndScan h rest (e + 1)

/-- Keyword openers counted by `_find_lua_tool` (`re.match(\bKW\b)`). -/
def luaKeywordAt (kw : Str) (s : Str) : Bool :=
  strStarts kw s &&
    (match s.drop kw.length with
     | [] => true
     | c :: _ => !isWordChar c)

/-- Depth loop of `_find_lua_tool`. -/
def luaEndScan : List Str → Nat → Int → Nat
  | [], e, _ => e
  | l :: rest, e, d =>
    if d ≤ 0 then e
    else
      let s := stripStr l
      let d1 :=
        [chars "function", chars "if", chars "for", chars "while",
          chars "repeat"].foldl
          (fun acc kw => if luaKeywordAt kw s then acc + 1 else acc) d
      let d2 :=
        if s = chars "end" || strStarts (chars "end ") s ||
            strStarts (chars "end)") s then d1 - 1
        else d1
      luaEndScan rest (e + 1) d2

/-- Depth loop of `_find_elixir_tool`. -/
def elixirEndScan : List Str → Nat → Int → Nat
  | [], e, _ => e
  | l :: rest, e, d =>
    if d ≤ 0 then e
    else
      let s := stripStr l
      let d1 :=
        if [chars "def ", chars "defp ", chars "defmodule ", chars "if ",
            chars "case ", chars "cond ", chars "fn "].any
            (fun kw => strStarts kw s) then d + 1
        else d
      let d2 :=
        if s = chars "end" || strStarts (chars "end)") s then d1 - 1 else d1
      elixirEndScan rest (e + 1) d2

/-- Depth loop of `_find_julia_tool`. -/
def juliaEndScan : List Str → Nat → Int → Nat
  | [], e, _ => e
  | l :: rest, e, d =>
    if d ≤ 0 then e
    else
      let s := stripStr l
      let d1 :=
        if [chars "function ", chars "if ", chars "for ", chars "while ",
            chars "begin", chars "let ", chars "try"].any
            (fun kw => strStarts kw s) then d + 1
        else d
      let d2 :=
        if s = chars "end" || strStarts (chars "end ") s ||
            strStarts (chars "end#") s then d1 - 1
        else d1
      juliaEndScan rest (e + 1) d2

/-- Forward scan of `_find_haskell_tool`: stop at a blank line or a line
that neither starts with whitespace nor with the name. -/
def haskellEndScan (name : Str) : List Str → Nat → Nat
  | [], e => e
  | l :: rest, e =>
    if (stripStr l).isEmpty then e
    else if
        (match l with
         | [] => true
         | c :: _ => c ≠ ' ' && c ≠ '\t') &&
          !strStarts name l then e
    else haskellEndScan name rest (e + 1)

/-- Forward scan of `_find_ocaml_tool`: stop at a blank line or a
top-level `let ` that does not bind the name. -/
def ocamlEndScan (name : Str) : List Str → Nat → Nat
  | [], e => e
  | l :: rest, e =>
    let s := stripStr l
    if s.isEmpty then e
    else if strStarts (chars "let ") s &&
        !strStarts (chars "let " ++ name) s then e
    else ocamlEndScan name rest (e + 1)

/-- Test on the stripped previous line used by the backward walks. -/
def stripStartsWith (pre : Str) (l : Str) : Bool :=
  strStarts pre (stripStr l)

/-- Generic body of `_find_python_tool` (the pattern is the only
name-dependent part). -/
def findPythonToolCore (p : Str → Bool) (lines : List Str) :
    Option (Nat × Nat × Str) :=
  match firstMatch p lines with
  | none => none
  | some i =>
    let s1 := walkBack (stripStartsWith (chars "@")) lines i
    let s := walkBack (stripStartsWith (chars "#")) lines s1
    let e0 := indentEndScan (indentOf (getLine lines i))
      (lines.drop (i + 1)) (i + 1)
    let e := trimBlank lines (i + 1) e0
    some (s, e, joinLines (slice lines s e))

/-- The locator `_find_python_tool`. -/
def findPythonTool (lines : List Str) (name : Str) : Option (Nat × Nat × Str) :=
  findPythonToolCore (pyDefMatch name) lines

/-- Body of `_find_js_tool` for one pattern. -/
def findJsToolCore (p : Str → Bool) (lines : List Str) :
    Option (Nat × Nat × Str) :=
  match firstMatch p lines with
  | none => none
  | some i =>
    let s := walkBack
      (fun l => stripStartsWith (chars "//") l || stripStartsWith (chars "/*") l)
      lines i
    let e := findBraceEnd lines i
    some (s, e, joinLines (slice lines s e))

/-- The locator `_find_js_tool` (patterns tried in order). -/
def findJsTool (lines : List Str) (name : Str) : Option (Nat × Nat × Str) :=
  match findJsToolCore (fun l => rsearch (jsFunctionToks name) l) lines with
  | some r => some r
  | none => findJsToolCore (jsConstMatch name) lines

/-- Body of `_find_brace_tool` for a given compiled pattern. -/
def findBraceTool (lines : List Str) (p : Str → Bool) :
    Option (Nat × Nat × Str) :=
  match firstMatch p lines with
  | none => none
  | some i =>
    let s := walkBack
      (fun l => stripStartsWith (chars "//") l ||
        stripStartsWith (chars "#[") l || stripStartsWith (chars "/*") l ||
        stripStartsWith (chars "///") l)
      lines i
    let e := findBraceEnd lines i
    some (s, e, joinLines (slice lines s e))

/-- Generic body of `_find_ruby_tool` (also used for Crystal). -/
def findRubyToolCore (p : Str → Bool) (lines : List Str) :
    Option (Nat × Nat × Str) :=
  match firstMatch p lines with
  | none => none
  | some i =>
    let s := walkBack (stripStartsWith (chars "#")) lines i
    let e := rubyEndScan (indentOf (getLine lines i))
      (lines.drop (i + 1)) (i + 1)
    some (s, e, joinLines (slice lines s e))

/-- The locator `_find_ruby_tool`. -/
def findRubyTool (lines : List Str) (name : Str) : Option (Nat × Nat × Str) :=
  findRubyToolCore (fun l => rsearch (rubyDefToks name) l) lines

/-- Body of `_find_lua_tool` for one pattern. -/
def findLuaToolCore (p : Str → Bool) (lines : List Str) :
    Option (Nat × Nat × Str) :=
  match firstMatch p lines with
  | none => none
  | some i =>
    let s := walkBack (stripStartsWith (chars "--")) lines i
    let e := luaEndScan (lines.drop (i + 1)) (i + 1) 1
    some (s, e, joinLines (slice lines s e))

/-- The locator `_find_lua_tool` (patterns tried in order). -/
def findLuaTool (lines : List Str) (name : Str) : Option (Nat × Nat × Str) :=
  match findLuaToolCore (fun l => rsearch (functionToks name) l) lines with
  | some r => some r
  | none => findLuaToolCore (fun l => rsearch (luaLocalToks name) l) lines

/-- The locator `_find_elixir_tool`. -/
def findElixirToolCore (p : Str → Bool) (lines : List Str) :
    Option (Nat × Nat × Str) :=
  match firstMatch p lines with
  | none => none
  | some i =>
    let s1 := walkBack (stripStartsWith (chars "#")) lines i
    let s := walkBack (stripStartsWith (chars "@")) lines s1
    let e := elixirEndScan (lines.drop (i + 1)) (i + 1) 1
    some (s, e, joinLines (slice lines s e))

def findElixirTool (lines : List Str) (name : Str) :
    Option (Nat × Nat × Str) :=
  findElixirToolCore (fun l => rsearch (elixirDefToks name) l) lines

/-- The locator `_find_haskell_tool`. -/
def findHaskellToolCore (p : Str → Bool) (name : Str) (lines : List Str) :
    Option (Nat × Nat × Str) :=
  match firstMatch p lines with
  | none => none
  | some i =>
    let s := walkBack (stripStartsWith (chars "--")) lines i
    let e0 := haskellEndScan name (lines.drop (i + 1)) (i + 1)
    let e := trimBlank lines (i + 1) e0
    some (s, e, joinLines (slice lines s e))

def findHaskellTool (lines : List Str) (name : Str) :
    Option (Nat × Nat × Str) :=
  findHaskellToolCore (haskellDefMatch name) name lines

/-- The locator `_find_ocaml_tool`. -/
def findOcamlToolCore (p : Str → Bool) (name : Str) (lines : List Str) :
    Option (Nat × Nat × Str) :=
  match firstMatch p lines with
  | none => none
  | some i =>
    let s := walkBack (stripStartsWith (chars "(*")) lines i
    let e0 := ocamlEndScan name (lines.drop (i + 1)) (i + 1)
    let e := trimBlank lines (i + 1) e0
    some (s, e, joinLines (slice lines s e))

def findOcamlTool (lines : List Str) (name : Str) :
    Option (Nat × Nat × Str) :=
  findOcamlToolCore (fun l => rsearch (ocamlLetToks name) l) name lines

/-- The locator `_find_nim_tool`. -/
def findNimToolCore (p : Str → Bool) (lines : List Str) :
    Option (Nat × Nat × Str) :=
  match firstMatch p lines with
  | none => none
  | some i =>
    let s := walkBack (stripStartsWith (chars "#")) lines i
    let e0 := indentEndScan (indentOf (getLine lines i))
      (lines.drop (i + 1)) (i + 1)
    let e := trimBlank lines (i + 1) e0
    some (s, e, joinLines (slice lines s e))

def findNimTool (lines : List Str) (name : Str) : Option (Nat × Nat × Str) :=
  findNimToolCore (nimDefMatch name) lines

/-- The locator `_find_julia_tool`. -/
def findJuliaToolCore (p : Str → Bool) (lines : List Str) :
    Option (Nat × Nat × Str) :=
  match firstMatch p lines with
  | none => none
  | some i =>
    let s := walkBack (stripStartsWith (chars "#")) lines i
    let e := juliaEndScan (lines.drop (i + 1)) (i + 1) 1
    some (s, e, joinLines (slice lines s e))

def findJuliaTool (lines : List Str) (name : Str) :
    Option (Nat × Nat × Str) :=
  findJuliaToolCore (fun l => rsearch (juliaDefToks name) l) lines

/-- The dispatcher `find_tool_in_source`: split into lines and route by
extension to the family locator with the language's pattern. -/
def findToolInLines (lines : List Str) (name lang : Str) :
    Option (Nat × Nat × Str) :=
  if lang = chars ".py" then findPythonTool lines name
  else if lang = chars ".js" ∨ lang = chars ".ts" then findJsTool lines name
  else if lang = chars ".rs" then
    findBraceTool lines (fun l => rsearch (fnToks name) l)
  else if lang = chars ".c" ∨ lang = chars ".cpp" ∨ lang = chars ".cc" ∨
      lang = chars ".cxx" then
    findBraceTool lines (fun l => rsearch (wordDefToks name) l)
  else if lang = chars ".go" then findBraceTool lines (goDefMatch name)
  else if lang = chars ".zig" then
    findBraceTool lines (fun l => rsearch (fnToks name) l)
  else if lang = chars ".java" then
    findBraceTool lines (fun l => rsearch (wordDefToks name) l)
  else if lang = chars ".rb" then findRubyTool lines name
  else if lang = chars ".kt" ∨ lang = chars ".kts" then
    findBraceTool lines (fun l => rsearch (funToks name) l)
  else if lang = chars ".swift" then
    findBraceTool lines (fun l => rsearch (funcToks name) l)
  else if lang = chars ".cs" then
    findBraceTool lines (fun l => rsearch (wordDefToks name) l)
  else if lang = chars ".php" then
    findBraceTool lines (fun l => rsearch (functionToks name) l)
  else if lang = chars ".lua" then findLuaTool lines name
  else if lang = chars ".scala" then
    findBraceTool lines (fun l => rsearch (scalaDefToks name) l)
  else if lang = chars ".ex" ∨ lang = chars ".exs" then
    findElixirTool lines name
  else if lang = chars ".dart" then
    findBraceTool lines (fun l => rsearch (wordDefToks name) l)
  else if lang = chars ".hs" then findHaskellTool lines name
  else if lang = chars ".ml" ∨ lang = chars ".mli" then
    findOcamlTool lines name
  else if lang = chars ".nim" then findNimTool lines name
  else if lang = chars ".d" then
    findBraceTool lines (fun l => rsearch (wordDefToks name) l)
  else if lang = chars ".cr" then findRubyTool lines name
  else if lang = chars ".raku" ∨ lang = chars ".rakumod" ∨
      lang = chars ".pm6" then
    findBraceTool lines (rakuDefMatch name)
  else if lang = chars ".jl" then findJuliaTool lines name
  else none

/-- The dispatcher `find_tool_in_source`: split into lines and route by
extension to the family locator with the language's pattern. -/
def findToolInSource (source name lang : Str) : Option (Nat × Nat × Str) :=
  findToolInLines (splitLines source) name lang

/-- Four consecutive newlines (three or more consecutive blank lines). -/
def quadNl : Str := ['\n', '\n', '\n', '\n']

/-- Three consecutive newlines. -/
def triNl : Str := ['\n', '\n', '\n']

/-- One pass of Python's `modified.replace('\n\n\n\n', '\n\n\n')`:
replace every non-overlapping occurrence, left to right.  Fuelled (each
step consumes at least one character, so `cs.length` always suffices). -/
def replaceQuadF : Nat → Str → Str
  | 0, cs => cs
  | n + 1, cs =>
    if strStarts quadNl cs then triNl ++ replaceQuadF n (cs.drop 4)
    else
      match cs with
      | [] => []
      | c :: r => c :: replaceQuadF n r

/-- One full pass of the replacement. -/
def replaceQuad (cs : Str) : Str := replaceQuadF cs.length cs

/-- The `while '\n\n\n\n' in modified` loop, fuelled; each pass strictly
shortens the buffer, so `cs.length` passes always reach the fixpoint. -/
def collapseFuel : Nat → Str → Str
  | 0, cs => cs
  | n + 1, cs =>
    if occursSub quadNl cs then collapseFuel n (replaceQuad cs) else cs

/-- Blank-line collapsing as performed by `remove_tool_from_source`. -/
def collapseBlank (cs : Str) : Str := collapseFuel cs.length cs

/-- Decimal rendering used by the f-string line numbers. -/
def natStr (n : Nat) : Str := (Nat.repr n).data

def notFoundMsg (name : Str) : Str :=
  chars "Tool '" ++ name ++ chars "' not found in source"

def removedMsg (name : Str) (s e : Nat) : Str :=
  chars "Tool '" ++ name ++ chars "' removed (lines " ++ natStr (s + 1) ++
    chars "-" ++ natStr e ++ chars ")"

def replacedMsg (name : Str) (s e : Nat) : Str :=
  chars "Tool '" ++ name ++ chars "' replaced (lines " ++ natStr (s + 1) ++
    chars "-" ++ natStr e ++ chars ")"

def alreadyExistsMsg (name path : Str) : Str :=
  chars "Tool '" ++ name ++ chars "' already exists in " ++ path

def injectedMsg (name backupPath : Str) : Str :=
  chars "Tool '" ++ name ++
    chars "' injected successfully. Backup created at " ++ backupPath

/-- The patcher `remove_tool_from_source`, with the Python syntax
validator (a wrapper over `ast.parse`) passed as a parameter.  Returns
`(success, message, modified_source)`. -/
def removeToolFromSource (v : Str → Bool × Str) (source name lang : Str) :
    Bool × Str × Str :=
  match findToolInSource source name lang with
  | none => (false, notFoundMsg name, source)
  | some (s, e, _) =>
    let lines := splitLines source
    let modified := collapseBlank (joinLines (lines.take s ++ lines.drop e))
    if lang = chars ".py" then
      match v modified with
      | (true, _) => (true, removedMsg name s e, modified)
      | (false, err) =>
        (false, chars "Removing tool would break syntax: " ++ err, source)
    else (true, removedMsg name s e, modified)

/-- The patcher `replace_tool_in_source`. -/
def replaceToolInSource (v : Str → Bool × Str)
    (source name newCode lang : Str) : Bool × Str × Str :=
  match findToolInSource source name lang with
  | none => (false, notFoundMsg name, source)
  | some (s, e, _) =>
    let lines := splitLines source
    let modified :=
      joinLines (lines.take s ++ splitLines newCode ++ lines.drop e)
    if lang = chars ".py" then
      match v modified with
      | (true, _) => (true, replacedMsg name s e, modified)
      | (false, err) =>
        (false, chars "Replacement would break syntax: " ++ err, source)
    else (true, replacedMsg name s e, modified)

/-- Decision pipeline of `inject_tool_into_python_file` on an in-memory
buffer: duplicate probe, candidate validation, combined validation, then
append with the provenance comment.  The final component is the file
content after the call. -/
def injectToolIntoPythonFile (v : Str → Bool × Str)
    (sourcePath backupPath source name code : Str) : Bool × Str × Str :=
  if checkToolExists source name then
    (false, alreadyExistsMsg name sourcePath, source)
  else
    match v code with
    | (false, err) => (false, chars "Invalid Python code: " ++ err, source)
    | (true, _) =>
      match v (source ++ chars "\n\n" ++ code) with
      | (false, err) =>
        (false, chars "Adding tool would break file syntax: " ++ err, source)
      | (true, _) =>
        (true, injectedMsg name backupPath,
          source ++ chars "\n\n# Tool injected by universal-mcp-admin\n" ++
            code ++ chars "\n")

/-- Outcome of the `subprocess.run(["node", "--check", tmp])` call. -/
inductive ProcResult where
  | ran : Int → Str → Str → ProcResult
  | missing : ProcResult
  | timedOut : ProcResult

/-- The validator `validate_javascript_code`, with the external `node`
invocation abstracted as `env` (exit code, stderr, stdout, or the
`FileNotFoundError` / `TimeoutExpired` exceptions). -/
def validateJavascriptCode (env : Str → ProcResult) (code : Str) :
    Bool × Str :=
  match env code with
  | .ran rc errS outS =>
    if rc = 0 then (true, [])
    else
      (false, chars "JavaScript syntax error: " ++
        (if (stripStr errS).isEmpty then stripStr outS else stripStr errS))
  | .missing =>
    (false,
      chars "Node.js not found. Please install Node.js to validate JavaScript code.")
  | .timedOut => (false, chars "JavaScript validation timed out")

/-- Decision pipeline of `inject_tool_into_javascript_file`. -/
def injectToolIntoJavascriptFile (env : Str → ProcResult)
    (sourcePath backupPath source name code : Str) : Bool × Str × Str :=
  if checkToolExistsJavascript source name then
    (false, alreadyExistsMsg name sourcePath, source)
  else
    match validateJavascriptCode env code with
    | (false, err) =>
      (false, chars "Invalid JavaScript code: " ++ err, source)
    | (true, _) =>
      match validateJavascriptCode env (source ++ chars "\n\n" ++ code) with
      | (false, err) =>
        (false, chars "Adding tool would break file syntax: " ++ err, source)
      | (true, _) =>
        (true, injectedMsg name backupPath,
          source ++ chars "\n\n// Tool injected by universal-mcp-admin\n" ++
            code ++ chars "\n")

/-- The keys of `LANGUAGE_HANDLERS`, in insertion order. -/
def supportedExts : List Str :=
  [chars ".py", chars ".js", chars ".rs", chars ".c", chars ".cpp",
   chars ".cc", chars ".cxx", chars ".go", chars ".ts", chars ".zig",
   chars ".java", chars ".rb", chars ".kt", chars ".kts", chars ".swift",
   chars ".cs", chars ".php", chars ".lua", chars ".scala", chars ".ex",
   chars ".exs", chars ".dart", chars ".hs", chars ".ml", chars ".mli",
   chars ".nim", chars ".d", chars ".cr", chars ".raku", chars ".rakumod",
   chars ".pm6", chars ".jl"]

/-- Every entry of `LANGUAGE_HANDLERS` carries a `validate` callable, so
each supported extension has a toolchain validator adapter. -/
def handlerHasValidator (ext : Str) : Bool :=
  supportedExts.any (fun k => decide (k = ext))

/-- Comma join for the supported-set listing. -/
def joinComma : List Str → Str
  | [] => []
  | [l] => l
  | l :: ls => l ++ chars ", " ++ joinComma ls

def unsupportedMsg (ext : Str) : Str :=
  chars "Unsupported language: " ++ ext ++ chars ". Supported: " ++
    joinComma supportedExts

/-- Extension gate and routing of `inject_tool_generic` (auto-import off):
unknown extensions are rejected before any handler — and hence before any
validation — runs; otherwise the language handler's `inject` is called. -/
def injectToolGeneric (handler : Str → Str → Str → Bool × Str × Str)
    (ext source name code : Str) : Bool × Str × Str :=
  if supportedExts.any (fun k => decide (k = ext)) then
    handler source name code
  else (false, unsupportedMsg ext, source)

/-- Shared shape of the per-family span lemmas. -/
def SpanOk (lines : List Str) (s e : Nat) (t : Str) : Prop :=
  s ≤ e ∧ e ≤ lines.length ∧ t = joinLines (slice lines s e)

/-- Spec-side rendering of "N is already defined as a function
declaration" in a Python buffer: some line matches the definition
pattern `def N(`.  Stated from the claim's words for comparison with the
probe `check_tool_exists` that the source implements. -/
def nameDefinedAsFunction (source name : Str) : Bool :=
  (splitLines source).any (fun l => pyDefMatch name l)

theorem splitLines_nil : splitLines [] = [] := rfl

theorem splitLines_newline (r : Str) :
    splitLines ('\n' :: r) = [] :: splitLines r := by
  simp [splitLines]

theorem splitLines_cons {c : Char} (hc : c ≠ '\n') (r : Str) :
    splitLines (c :: r) =
      match splitLines r with
      | [] => [[c]]
      | l :: ls => (c :: l) :: ls := by
  simp [splitLines, hc]

theorem splitLines_ne_nil {cs : Str} (h : cs ≠ []) : splitLines cs ≠ [] := by
  match cs with
  | [] => exact absurd rfl h
  | c :: r =>
    by_cases hc : c = '\n'
    · subst hc; simp [splitLines_newline]
    · rw [splitLines_cons hc]
      cases splitLines r <;> simp

theorem splitLines_head {cs : Str} (h : cs ≠ []) :
    (splitLines cs).head? = some (firstLine cs) := by
  induction cs with
  | nil => exact absurd rfl h
  | cons c r ih =>
    by_cases hc : c = '\n'
    · subst hc; simp [splitLines_newline, firstLine]
    · rw [splitLines_cons hc]
      by_cases hr : r = []
      · subst hr; simp [splitLines, firstLine, hc]
      · have h2 := ih hr
        cases hsp : splitLines r with
        | nil => exact absurd hsp (splitLines_ne_nil hr)
        | cons l ls =>
          rw [hsp] at h2
          simp at h2
          simp [firstLine, hc, h2]

/-- Splitting distributes over an interior newline. -/
theorem splitLines_append_newline (a r : Str) :
    splitLines (a ++ '\n' :: r) = splitLines (a ++ ['\n']) ++ splitLines r := by
  induction a with
  | nil => simp [splitLines_newline, splitLines]
  | cons c a ih =>
    by_cases hc : c = '\n'
    · subst hc
      simp only [List.cons_append, splitLines_newline, ih, List.cons_append]
    · simp only [List.cons_append, splitLines_cons hc]
      have hne : (a ++ ['\n'] : Str) ≠ [] := by simp
      cases hsp : splitLines (a ++ ['\n']) with
      | nil => exact absurd hsp (splitLines_ne_nil hne)
      | cons l ls =>
        rw [hsp] at ih
        rw [ih]
        simp

/-- Terminating a buffer with a newline adds an empty final line exactly
when the buffer already ends in a newline or is empty. -/
theorem splitLines_terminate (a : Str) :
    splitLines (a ++ ['\n']) =
      splitLines a ++ (if lastChar a = some '\n' ∨ a = [] then [[]] else []) := by
  induction a with
  | nil => simp [splitLines_newline, splitLines]
  | cons c a ih =>
    by_cases hc : c = '\n'
    · subst hc
      cases ha : a with
      | nil => simp [splitLines_newline, splitLines, lastChar]
      | cons d t =>
        rw [← ha]
        simp only [List.cons_append, splitLines_newline, ih]
        have : lastChar ('\n' :: a) = lastChar a := by
          rw [ha]; rfl
        rw [this]
        have : ('\n' :: a : Str) ≠ [] := by simp
        simp [this, ha]
    · have hlast : lastChar (c :: a) = if a = [] then some c else lastChar a := by
        cases a with
        | nil => rfl
        | cons d t => rfl
      cases ha : a with
      | nil =>
        subst ha
        simp [splitLines_cons hc, splitLines, splitLines_newline, lastChar, hc]
      | cons d t =>
        rw [← ha]
        have hane : a ≠ [] := by simp [ha]
        simp only [List.cons_append, splitLines_cons hc]
        rw [ih]
        have h1 : (c :: a : Str) ≠ [] := by simp
        rw [hlast]
        simp only [hane, if_neg hane, h1, or_false]
        have h2 : lastChar ('\n' :: a) = lastChar a := by rw [ha]; rfl
        by_cases hl : lastChar a = some '\n'
        · cases hsp : splitLines a with
          | nil => exact absurd hsp (splitLines_ne_nil hane)
          | cons l ls => simp [hl, hsp, hane]
        · cases hsp : splitLines a with
          | nil => exact absurd hsp (splitLines_ne_nil hane)
          | cons l ls => simp [hl, hsp, hane]

section ScanLemmas
theorem firstMatch_some_lt {p : Str → Bool} {lines : List Str} {i : Nat}
    (h : firstMatch p lines = some i) : i < lines.length := by
  induction lines generalizing i with
  | nil => simp [firstMatch] at h
  | cons l ls ih =>
    simp only [firstMatch] at h
    split at h
    · injection h with h
      simp only [List.length_cons]
      omega
    · simp only [Option.map_eq_some'] at h
      obtain ⟨j, hj, rfl⟩ := h
      have := ih hj
      simp only [List.length_cons]
      omega

theorem firstMatch_some_matches {p : Str → Bool} {lines : List Str} {i : Nat}
    (h : firstMatch p lines = some i) : p (getLine lines i) = true := by
  induction lines generalizing i with
  | nil => simp [firstMatch] at h
  | cons l ls ih =>
    simp only [firstMatch] at h
    split at h
    · rename_i hp
      injection h with h
      subst h
      simpa [getLine] using hp
    · simp only [Option.map_eq_some'] at h
      obtain ⟨j, hj, rfl⟩ := h
      simpa [getLine] using ih hj

theorem firstMatch_least {p : Str → Bool} {lines : List Str} {i : Nat}
    (h : firstMatch p lines = some i) :
    ∀ j, j < i → p (getLine lines j) = false := by
  induction lines generalizing i with
  | nil => simp [firstMatch] at h
  | cons l ls ih =>
    simp only [firstMatch] at h
    split at h
    · injection h with h
      intro j hj
      omega
    · rename_i hp
      simp only [Option.map_eq_some'] at h
      obtain ⟨k, hk, rfl⟩ := h
      intro j hj
      cases j with
      | zero =>
        cases hpl : p l with
        | true => exact absurd hpl hp
        | false => simpa [getLine] using hpl
      | succ j =>
        simpa [getLine] using ih hk j (by omega)

theorem firstMatch_append_none {p : Str → Bool} {a : List Str}
    (ha : ∀ l ∈ a, p l = false) (b : List Str) :
    firstMatch p (a ++ b) = (firstMatch p b).map (· + a.length) := by
  induction a with
  | nil =>
    simp only [List.nil_append, List.length_nil]
    cases firstMatch p b <;> simp
  | cons l ls ih =>
    have hl : p l = false := ha l (List.mem_cons_self l ls)
    have hrest : ∀ x ∈ ls, p x = false := fun x hx =>
      ha x (List.mem_cons_of_mem l hx)
    simp only [List.cons_append, firstMatch, hl, Bool.false_eq_true, if_false,
      List.length_cons, List.append_eq]
    rw [ih hrest]
    cases firstMatch p b with
    | none => simp
    | some x =>
      simp only [Option.map_some', Option.map_map, Function.comp,
        Option.some.injEq]
      omega

theorem walkBack_le (p : Str → Bool) (lines : List Str) (i : Nat) :
    walkBack p lines i ≤ i := by
  induction i with
  | zero => simp [walkBack]
  | succ n ih =>
    simp only [walkBack]
    split
    · exact le_trans ih (by omega)
    · omega

theorem walkBack_eq {p : Str → Bool} {lines : List Str} {i j : Nat}
    (hji : j ≤ i)
    (hall : ∀ k, j ≤ k → k < i → p (getLine lines k) = true)
    (hstop : j = 0 ∨ p (getLine lines (j - 1)) = false) :
    walkBack p lines i = j := by
  induction i with
  | zero =>
    have hj0 : j = 0 := by omega
    subst hj0
    rfl
  | succ n ih =>
    simp only [walkBack]
    by_cases hji' : j = n + 1
    · subst hji'
      rcases hstop with h0 | hfail
      · exact absurd h0 (by omega)
      · simp only [Nat.add_sub_cancel] at hfail
        simp [hfail]
    · have hj : j ≤ n := by omega
      have hn : p (getLine lines n) = true := hall n hj (by omega)
      rw [hn]
      simp only [if_true]
      exact ih hj (fun k hk hk' => hall k hk (by omega))

theorem indentEndScan_ge (h : Nat) (rest : List Str) (e : Nat) :
    e ≤ indentEndScan h rest e := by
  induction rest generalizing e with
  | nil => simp [indentEndScan]
  | cons l ls ih =>
    simp only [indentEndScan]
    split
    · exact le_trans (by omega) (ih (e + 1))
    · split
      · omega
      · exact le_trans (by omega) (ih (e + 1))

theorem indentEndScan_le (h : Nat) (rest : List Str) (e : Nat) :
    indentEndScan h rest e ≤ e + rest.length := by
  induction rest generalizing e with
  | nil => simp [indentEndScan]
  | cons l ls ih =>
    simp only [indentEndScan, List.length_cons]
    split
    · have := ih (e + 1); omega
    · split
      · omega
      · have := ih (e + 1); omega

theorem trimBlank_le (lines : List Str) (lo e : Nat) :
    trimBlank lines lo e ≤ e := by
  induction e with
  | zero => simp [trimBlank]
  | succ n ih =>
    simp only [trimBlank]
    split
    · exact le_trans ih (by omega)
    · omega

theorem trimBlank_ge {lines : List Str} {lo e : Nat} (h : lo ≤ e) :
    lo ≤ trimBlank lines lo e := by
  induction e with
  | zero => simpa [trimBlank] using h
  | succ n ih =>
    simp only [trimBlank]
    split
    · rename_i hcond
      simp only [Bool.and_eq_true, decide_eq_true_eq] at hcond
      exact ih (by omega)
    · exact h

theorem braceEndAux_le_ge {rest : List Str} {i : Nat} {d : Int} {f : Bool}
    {total : Nat} (hne : rest ≠ []) (htot : i + rest.length = total) :
    i + 1 ≤ braceEndAux rest i d f total ∧
      braceEndAux rest i d f total ≤ total := by
  induction rest generalizing i d f with
  | nil => exact absurd rfl hne
  | cons l ls ih =>
    cases hb : braceScanLine l d f with
    | none =>
      simp only [braceEndAux, hb]
      simp only [List.length_cons] at htot
      omega
    | some df =>
      obtain ⟨d', f'⟩ := df
      simp only [braceEndAux, hb]
      by_cases hls : ls = []
      · subst hls
        simp only [braceEndAux]
        simp only [List.length_cons, List.length_nil] at htot
        omega
      · have := ih (i := i + 1) (d := d') (f := f') hls
          (by simp only [List.length_cons] at htot; omega)
        omega

theorem findBraceEnd_bounds {lines : List Str} {i : Nat}
    (hi : i < lines.length) :
    i + 1 ≤ findBraceEnd lines i ∧ findBraceEnd lines i ≤ lines.length := by
  have hne : lines.drop i ≠ [] := by
    intro h
    have := List.drop_eq_nil_iff.mp h
    omega
  have htot : i + (lines.drop i).length = lines.length := by
    simp only [List.length_drop]
    omega
  exact braceEndAux_le_ge hne htot

theorem rubyEndScan_ge (h : Nat) (rest : List Str) (e : Nat) :
    e ≤ rubyEndScan h rest e := by
  induction rest generalizing e with
  | nil => simp [rubyEndScan]
  | cons l ls ih =>
    simp only [rubyEndScan]
    split
    · omega
    · exact le_trans (by omega) (ih (e + 1))

theorem rubyEndScan_le (h : Nat) (rest : List Str) (e : Nat) :
    rubyEndScan h rest e ≤ e + rest.length := by
  induction rest generalizing e with
  | nil => simp [rubyEndScan]
  | cons l ls ih =>
    simp only [rubyEndScan, List.length_cons]
    split
    · omega
    · have := ih (e + 1); omega

theorem luaEndScan_ge (rest : List Str) (e : Nat) (d : Int) :
    e ≤ luaEndScan rest e d := by
  induction rest generalizing e d with
  | nil => simp [luaEndScan]
  | cons l ls ih =>
    simp only [luaEndScan]
    split
    · omega
    · exact le_trans (by omega) (ih (e + 1) _)

theorem luaEndScan_le (rest : List Str) (e : Nat) (d : Int) :
    luaEndScan rest e d ≤ e + rest.length := by
  induction rest generalizing e d with
  | nil => simp [luaEndScan]
  | cons l ls ih =>
    simp only [luaEndScan, List.length_cons]
    split
    · omega
    · exact le_trans (ih (e + 1) _) (by omega)

theorem elixirEndScan_ge (rest : List Str) (e : Nat) (d : Int) :
    e ≤ elixirEndScan rest e d := by
  induction rest generalizing e d with
  | nil => simp [elixirEndScan]
  | cons l ls ih =>
    simp only [elixirEndScan]
    split
    · omega
    · exact le_trans (by omega) (ih (e + 1) _)

theorem elixirEndScan_le (rest : List Str) (e : Nat) (d : Int) :
    elixirEndScan rest e d ≤ e + rest.length := by
  induction rest generalizing e d with
  | nil => simp [elixirEndScan]
  | cons l ls ih =>
    simp only [elixirEndScan, List.length_cons]
    split
    · omega
    · exact le_trans (ih (e + 1) _) (by omega)

theorem juliaEndScan_ge (rest : List Str) (e : Nat) (d : Int) :
    e ≤ juliaEndScan rest e d := by
  induction rest generalizing e d with
  | nil => simp [juliaEndScan]
  | cons l ls ih =>
    simp only [juliaEndScan]
    split
    · omega
    · exact le_trans (by omega) (ih (e + 1) _)

theorem juliaEndScan_le (rest : List Str) (e : Nat) (d : Int) :
    juliaEndScan rest e d ≤ e + rest.length := by
  induction rest generalizing e d with
  | nil => simp [juliaEndScan]
  | cons l ls ih =>
    simp only [juliaEndScan, List.length_cons]
    split
    · omega
    · exact le_trans (ih (e + 1) _) (by omega)

theorem haskellEndScan_ge (name : Str) (rest : List Str) (e : Nat) :
    e ≤ haskellEndScan name rest e := by
  induction rest generalizing e with
  | nil => simp [haskellEndScan]
  | cons l ls ih =>
    simp only [haskellEndScan]
    split
    · omega
    · split
      · omega
      · exact le_trans (by omega) (ih (e + 1))

theorem haskellEndScan_le (name : Str) (rest : List Str) (e : Nat) :
    haskellEndScan name rest e ≤ e + rest.length := by
  induction rest generalizing e with
  | nil => simp [haskellEndScan]
  | cons l ls ih =>
    simp only [haskellEndScan, List.length_cons]
    split
    · omega
    · split
      · omega
      · exact le_trans (ih (e + 1)) (by omega)

theorem ocamlEndScan_ge (name : Str) (rest : List Str) (e : Nat) :
    e ≤ ocamlEndScan name rest e := by
  induction rest generalizing e with
  | nil => simp [ocamlEndScan]
  | cons l ls ih =>
    simp only [ocamlEndScan]
    split
    · omega
    · split
      · omega
      · exact le_trans (by omega) (ih (e + 1))

theorem ocamlEndScan_le (name : Str) (rest : List Str) (e : Nat) :
    ocamlEndScan name rest e ≤ e + rest.length := by
  induction rest generalizing e with
  | nil => simp [ocamlEndScan]
  | cons l ls ih =>
    simp only [ocamlEndScan, List.length_cons]
    split
    · omega
    · split
      · omega
      · exact le_trans (ih (e + 1)) (by omega)
end ScanLemmas

section SpanLemmas

theorem findPythonToolCore_spec {p : Str → Bool} {lines : List Str}
    {s e : Nat} {t : Str} (h : findPythonToolCore p lines = some (s, e, t)) :
    SpanOk lines s e t := by
  unfold findPythonToolCore at h
  cases hm : firstMatch p lines with
  | none => rw [hm] at h; simp at h
  | some i =>
    rw [hm] at h
    simp only [Option.some.injEq, Prod.mk.injEq] at h
    obtain ⟨rfl, rfl, rfl⟩ := h
    have hi : i < lines.length := firstMatch_some_lt hm
    have hw1 : walkBack (stripStartsWith (chars "@")) lines i ≤ i :=
      walkBack_le _ _ _
    have hw2 := walkBack_le (stripStartsWith (chars "#")) lines
      (walkBack (stripStartsWith (chars "@")) lines i)
    have hsc := indentEndScan_ge (indentOf (getLine lines i))
      (lines.drop (i + 1)) (i + 1)
    have hsc2 := indentEndScan_le (indentOf (getLine lines i))
      (lines.drop (i + 1)) (i + 1)
    have hlen : (lines.drop (i + 1)).length = lines.length - (i + 1) := by
      simp
    have htg := @trimBlank_ge lines (i + 1) _ hsc
    have htl := trimBlank_le lines (i + 1)
      (indentEndScan (indentOf (getLine lines i)) (lines.drop (i + 1)) (i + 1))
    refine ⟨by omega, by omega, rfl⟩

theorem findJsToolCore_spec {p : Str → Bool} {lines : List Str}
    {s e : Nat} {t : Str} (h : findJsToolCore p lines = some (s, e, t)) :
    SpanOk lines s e t := by
  unfold findJsToolCore at h
  cases hm : firstMatch p lines with
  | none => rw [hm] at h; simp at h
  | some i =>
    rw [hm] at h
    simp only [Option.some.injEq, Prod.mk.injEq] at h
    obtain ⟨rfl, rfl, rfl⟩ := h
    have hi : i < lines.length := firstMatch_some_lt hm
    have hw := walkBack_le
      (fun l => stripStartsWith (chars "//") l || stripStartsWith (chars "/*") l)
      lines i
    have hb := findBraceEnd_bounds hi
    refine ⟨by omega, by omega, rfl⟩

theorem findBraceTool_spec {p : Str → Bool} {lines : List Str}
    {s e : Nat} {t : Str} (h : findBraceTool lines p = some (s, e, t)) :
    SpanOk lines s e t := by
  unfold findBraceTool at h
  cases hm : firstMatch p lines with
  | none => rw [hm] at h; simp at h
  | some i =>
    rw [hm] at h
    simp only [Option.some.injEq, Prod.mk.injEq] at h
    obtain ⟨rfl, rfl, rfl⟩ := h
    have hi : i < lines.length := firstMatch_some_lt hm
    have hw := walkBack_le
      (fun l => stripStartsWith (chars "//") l || stripStartsWith (chars "#[") l
        || stripStartsWith (chars "/*") l || stripStartsWith (chars "///") l)
      lines i
    have hb := findBraceEnd_bounds hi
    refine ⟨by omega, by omega, rfl⟩

theorem findRubyToolCore_spec {p : Str → Bool} {lines : List Str}
    {s e : Nat} {t : Str} (h : findRubyToolCore p lines = some (s, e, t)) :
    SpanOk lines s e t := by
  unfold findRubyToolCore at h
  cases hm : firstMatch p lines with
  | none => rw [hm] at h; simp at h
  | some i =>
    rw [hm] at h
    simp only [Option.some.injEq, Prod.mk.injEq] at h
    obtain ⟨rfl, rfl, rfl⟩ := h
    have hi : i < lines.length := firstMatch_some_lt hm
    have hw := walkBack_le (stripStartsWith (chars "#")) lines i
    have hsc := rubyEndScan_ge (indentOf (getLine lines i))
      (lines.drop (i + 1)) (i + 1)
    have hsc2 := rubyEndScan_le (indentOf (getLine lines i))
      (lines.drop (i + 1)) (i + 1)
    have hlen : (lines.drop (i + 1)).length = lines.length - (i + 1) := by
      simp
    refine ⟨by omega, by omega, rfl⟩

theorem findLuaToolCore_spec {p : Str → Bool} {lines : List Str}
    {s e : Nat} {t : Str} (h : findLuaToolCore p lines = some (s, e, t)) :
    SpanOk lines s e t := by
  unfold findLuaToolCore at h
  cases hm : firstMatch p lines with
  | none => rw [hm] at h; simp at h
  | some i =>
    rw [hm] at h
    simp only [Option.some.injEq, Prod.mk.injEq] at h
    obtain ⟨rfl, rfl, rfl⟩ := h
    have hi : i < lines.length := firstMatch_some_lt hm
    have hw := walkBack_le (stripStartsWith (chars "--")) lines i
    have hsc := luaEndScan_ge (lines.drop (i + 1)) (i + 1) 1
    have hsc2 := luaEndScan_le (lines.drop (i + 1)) (i + 1) 1
    have hlen : (lines.drop (i + 1)).length = lines.length - (i + 1) := by
      simp
    refine ⟨by omega, by omega, rfl⟩

theorem findElixirToolCore_spec {p : Str → Bool} {lines : List Str}
    {s e : Nat} {t : Str} (h : findElixirToolCore p lines = some (s, e, t)) :
    SpanOk lines s e t := by
  unfold findElixirToolCore at h
  cases hm : firstMatch p lines with
  | none => rw [hm] at h; simp at h
  | some i =>
    rw [hm] at h
    simp only [Option.some.injEq, Prod.mk.injEq] at h
    obtain ⟨rfl, rfl, rfl⟩ := h
    have hi : i < lines.length := firstMatch_some_lt hm
    have hw1 := walkBack_le (stripStartsWith (chars "#")) lines i
    have hw2 := walkBack_le (stripStartsWith (chars "@")) lines
      (walkBack (stripStartsWith (chars "#")) lines i)
    have hsc := elixirEndScan_ge (lines.drop (i + 1)) (i + 1) 1
    have hsc2 := elixirEndScan_le (lines.drop (i + 1)) (i + 1) 1
    have hlen : (lines.drop (i + 1)).length = lines.length - (i + 1) := by
      simp
    refine ⟨by omega, by omega, rfl⟩

theorem findHaskellToolCore_spec {p : Str → Bool} {name : Str}
    {lines : List Str} {s e : Nat} {t : Str}
    (h : findHaskellToolCore p name lines = some (s, e, t)) :
    SpanOk lines s e t := by
  unfold findHaskellToolCore at h
  cases hm : firstMatch p lines with
  | none => rw [hm] at h; simp at h
  | some i =>
    rw [hm] at h
    simp only [Option.some.injEq, Prod.mk.injEq] at h
    obtain ⟨rfl, rfl, rfl⟩ := h
    have hi : i < lines.length := firstMatch_some_lt hm
    have hw := walkBack_le (stripStartsWith (chars "--")) lines i
    have hsc := haskellEndScan_ge name (lines.drop (i + 1)) (i + 1)
    have hsc2 := haskellEndScan_le name (lines.drop (i + 1)) (i + 1)
    have hlen : (lines.drop (i + 1)).length = lines.length - (i + 1) := by
      simp
    have htg := @trimBlank_ge lines (i + 1) _ hsc
    have htl := trimBlank_le lines (i + 1)
      (haskellEndScan name (lines.drop (i + 1)) (i + 1))
    refine ⟨by omega, by omega, rfl⟩

theorem findOcamlToolCore_spec {p : Str → Bool} {name : Str}
    {lines : List Str} {s e : Nat} {t : Str}
    (h : findOcamlToolCore p name lines = some (s, e, t)) :
    SpanOk lines s e t := by
  unfold findOcamlToolCore at h
  cases hm : firstMatch p lines with
  | none => rw [hm] at h; simp at h
  | some i =>
    rw [hm] at h
    simp only [Option.some.injEq, Prod.mk.injEq] at h
    obtain ⟨rfl, rfl, rfl⟩ := h
    have hi : i < lines.length := firstMatch_some_lt hm
    have hw := walkBack_le (stripStartsWith (chars "(*")) lines i
    have hsc := ocamlEndScan_ge name (lines.drop (i + 1)) (i + 1)
    have hsc2 := ocamlEndScan_le name (lines.drop (i + 1)) (i + 1)
    have hlen : (lines.drop (i + 1)).length = lines.length - (i + 1) := by
      simp
    have htg := @trimBlank_ge lines (i + 1) _ hsc
    have htl := trimBlank_le lines (i + 1)
      (ocamlEndScan name (lines.drop (i + 1)) (i + 1))
    refine ⟨by omega, by omega, rfl⟩

theorem findNimToolCore_spec {p : Str → Bool} {lines : List Str}
    {s e : Nat} {t : Str} (h : findNimToolCore p lines = some (s, e, t)) :
    SpanOk lines s e t := by
  unfold findNimToolCore at h
  cases hm : firstMatch p lines with
  | none => rw [hm] at h; simp at h
  | some i =>
    rw [hm] at h
    simp only [Option.some.injEq, Prod.mk.injEq] at h
    obtain ⟨rfl, rfl, rfl⟩ := h
    have hi : i < lines.length := firstMatch_some_lt hm
    have hw := walkBack_le (stripStartsWith (chars "#")) lines i
    have hsc := indentEndScan_ge (indentOf (getLine lines i))
      (lines.drop (i + 1)) (i + 1)
    have hsc2 := indentEndScan_le (indentOf (getLine lines i))
      (lines.drop (i + 1)) (i + 1)
    have hlen : (lines.drop (i + 1)).length = lines.length - (i + 1) := by
      simp
    have htg := @trimBlank_ge lines (i + 1) _ hsc
    have htl := trimBlank_le lines (i + 1)
      (indentEndScan (indentOf (getLine lines i)) (lines.drop (i + 1)) (i + 1))
    refine ⟨by omega, by omega, rfl⟩

theorem findJuliaToolCore_spec {p : Str → Bool} {lines : List Str}
    {s e : Nat} {t : Str} (h : findJuliaToolCore p lines = some (s, e, t)) :
    SpanOk lines s e t := by
  unfold findJuliaToolCore at h
  cases hm : firstMatch p lines with
  | none => rw [hm] at h; simp at h
  | some i =>
    rw [hm] at h
    simp only [Option.some.injEq, Prod.mk.injEq] at h
    obtain ⟨rfl, rfl, rfl⟩ := h
    have hi : i < lines.length := firstMatch_some_lt hm
    have hw := walkBack_le (stripStartsWith (chars "#")) lines i
    have hsc := juliaEndScan_ge (lines.drop (i + 1)) (i + 1) 1
    have hsc2 := juliaEndScan_le (lines.drop (i + 1)) (i + 1) 1
    have hlen : (lines.drop (i + 1)).length = lines.length - (i + 1) := by
      simp
    refine ⟨by omega, by omega, rfl⟩

theorem findJsTool_spec {lines : List Str} {name : Str} {s e : Nat} {t : Str}
    (h : findJsTool lines name = some (s, e, t)) : SpanOk lines s e t := by
  unfold findJsTool at h
  cases h1 : findJsToolCore (fun l => rsearch (jsFunctionToks name) l) lines with
  | some r =>
    rw [h1] at h
    simp only [Option.some.injEq] at h
    subst h
    exact findJsToolCore_spec h1
  | none =>
    rw [h1] at h
    exact findJsToolCore_spec h

theorem findLuaTool_spec {lines : List Str} {name : Str} {s e : Nat} {t : Str}
    (h : findLuaTool lines name = some (s, e, t)) : SpanOk lines s e t := by
  unfold findLuaTool at h
  cases h1 : findLuaToolCore (fun l => rsearch (functionToks name) l) lines with
  | some r =>
    rw [h1] at h
    simp only [Option.some.injEq] at h
    subst h
    exact findLuaToolCore_spec h1
  | none =>
    rw [h1] at h
    exact findLuaToolCore_spec h

set_option maxHeartbeats 1000000 in
theorem findToolInLines_spec {lines : List Str} {name lang : Str}
    {s e : Nat} {t : Str}
    (h : findToolInLines lines name lang = some (s, e, t)) :
    SpanOk lines s e t := by
  rw [findToolInLines] at h
  by_cases h1 : lang = chars ".py"
  · rw [if_pos h1] at h
    exact findPythonToolCore_spec h
  rw [if_neg h1] at h
  by_cases h2 : lang = chars ".js" ∨ lang = chars ".ts"
  · rw [if_pos h2] at h
    exact findJsTool_spec h
  rw [if_neg h2] at h
  by_cases h3 : lang = chars ".rs"
  · rw [if_pos h3] at h
    exact findBraceTool_spec h
  rw [if_neg h3] at h
  by_cases h4 : lang = chars ".c" ∨ lang = chars ".cpp" ∨ lang = chars ".cc" ∨ lang = chars ".cxx"
  · rw [if_pos h4] at h
    exact findBraceTool_spec h
  rw [if_neg h4] at h
  by_cases h5 : lang = chars ".go"
  · rw [if_pos h5] at h
    exact findBraceTool_spec h
  rw [if_neg h5] at h
  by_cases h6 : lang = chars ".zig"
  · rw [if_pos h6] at h
    exact findBraceTool_spec h
  rw [if_neg h6] at h
  by_cases h7 : lang = chars ".java"
  · rw [if_pos h7] at h
    exact findBraceTool_spec h
  rw [if_neg h7] at h
  by_cases h8 : lang = chars ".rb"
  · rw [if_pos h8] at h
    exact findRubyToolCore_spec h
  rw [if_neg h8] at h
  by_cases h9 : lang = chars ".kt" ∨ lang = chars ".kts"
  · rw [if_pos h9] at h
    exact findBraceTool_spec h
  rw [if_neg h9] at h
  by_cases h10 : lang = chars ".swift"
  · rw [if_pos h10] at h
    exact findBraceTool_spec h
  rw [if_neg h10] at h
  by_cases h11 : lang = chars ".cs"
  · rw [if_pos h11] at h
    exact findBraceTool_spec h
  rw [if_neg h11] at h
  by_cases h12 : lang = chars ".php"
  · rw [if_pos h12] at h
    exact findBraceTool_spec h
  rw [if_neg h12] at h
  by_cases h13 : lang = chars ".lua"
  · rw [if_pos h13] at h
    exact findLuaTool_spec h
  rw [if_neg h13] at h
  by_cases h14 : lang = chars ".scala"
  · rw [if_pos h14] at h
    exact findBraceTool_spec h
  rw [if_neg h14] at h
  by_cases h15 : lang = chars ".ex" ∨ lang = chars ".exs"
  · rw [if_pos h15] at h
    exact findElixirToolCore_spec h
  rw [if_neg h15] at h
  by_cases h16 : lang = chars ".dart"
  · rw [if_pos h16] at h
    exact findBraceTool_spec h
  rw [if_neg h16] at h
  by_cases h17 : lang = chars ".hs"
  · rw [if_pos h17] at h
    exact findHaskellToolCore_spec h
  rw [if_neg h17] at h
  by_cases h18 : lang = chars ".ml" ∨ lang = chars ".mli"
  · rw [if_pos h18] at h
    exact findOcamlToolCore_spec h
  rw [if_neg h18] at h
  by_cases h19 : lang = chars ".nim"
  · rw [if_pos h19] at h
    exact findNimToolCore_spec h
  rw [if_neg h19] at h
  by_cases h20 : lang = chars ".d"
  · rw [if_pos h20] at h
    exact findBraceTool_spec h
  rw [if_neg h20] at h
  by_cases h21 : lang = chars ".cr"
  · rw [if_pos h21] at h
    exact findRubyToolCore_spec h
  rw [if_neg h21] at h
  by_cases h22 : lang = chars ".raku" ∨ lang = chars ".rakumod" ∨ lang = chars ".pm6"
  · rw [if_pos h22] at h
    exact findBraceTool_spec h
  rw [if_neg h22] at h
  by_cases h23 : lang = chars ".jl"
  · rw [if_pos h23] at h
    exact findJuliaToolCore_spec h
  rw [if_neg h23] at h
  simp at h

theorem findToolInSource_spec {source name lang : Str} {s e : Nat} {t : Str}
    (h : findToolInSource source name lang = some (s, e, t)) :
    SpanOk (splitLines source) s e t :=
  findToolInLines_spec h

theorem anyFalse {α : Type} {p : α → Bool} {l : List α}
    (h : l.any p = false) : ∀ x ∈ l, p x = false := by
  induction l with
  | nil => simp
  | cons a as ih =>
    simp only [List.any_cons, Bool.or_eq_false_iff] at h
    intro x hx
    rcases List.mem_cons.mp hx with rfl | hx2
    · exact h.1
    · exact ih h.2 x hx2

set_option maxHeartbeats 1000000 in
theorem findToolInLines_unsupported {lines : List Str} {name ext : Str}
    (h : supportedExts.any (fun k => decide (k = ext)) = false) :
    findToolInLines lines name ext = none := by
  have epy : (ext = chars ".py") = False :=
    eq_false (fun hh => by
      have q := anyFalse h (chars ".py") (by simp [supportedExts])
      rw [hh] at q
      simp at q)
  have ejs : (ext = chars ".js") = False :=
    eq_false (fun hh => by
      have q := anyFalse h (chars ".js") (by simp [supportedExts])
      rw [hh] at q
      simp at q)
  have ers : (ext = chars ".rs") = False :=
    eq_false (fun hh => by
      have q := anyFalse h (chars ".rs") (by simp [supportedExts])
      rw [hh] at q
      simp at q)
  have ec : (ext = chars ".c") = False :=
    eq_false (fun hh => by
      have q := anyFalse h (chars ".c") (by simp [supportedExts])
      rw [hh] at q
      simp at q)
  have ecpp : (ext = chars ".cpp") = False :=
    eq_false (fun hh => by
      have q := anyFalse h (chars ".cpp") (by simp [supportedExts])
      rw [hh] at q
      simp at q)
  have ecc : (ext = chars ".cc") = False :=
    eq_false (fun hh => by
      have q := anyFalse h (chars ".cc") (by simp [supportedExts])
      rw [hh] at q
      simp at q)
  have ecxx : (ext = chars ".cxx") = False :=
    eq_false (fun hh => by
      have q := anyFalse h (chars ".cxx") (by simp [supportedExts])
      rw [hh] at q
      simp at q)
  have ego : (ext = chars ".go") = False :=
    eq_false (fun hh => by
      have q := anyFalse h (chars ".go") (by simp [supportedExts])
      rw [hh] at q
      simp at q)
  have ets : (ext = chars ".ts") = False :=
    eq_false (fun hh => by
      have q := anyFalse h (chars ".ts") (by simp [supportedExts])
      rw [hh] at q
      simp at q)
  have ezig : (ext = chars ".zig") = False :=
    eq_false (fun hh => by
      have q := anyFalse h (chars ".zig") (by simp [supportedExts])
      rw [hh] at q
      simp at q)
  have ejava : (ext = chars ".java") = False :=
    eq_false (fun hh => by
      have q := anyFalse h (chars ".java") (by simp [supportedExts])
      rw [hh] at q
      simp at q)
  have erb : (ext = chars ".rb") = False :=
    eq_false (fun hh => by
      have q := anyFalse h (chars ".rb") (by simp [supportedExts])
      rw [hh] at q
      simp at q)
  have ekt : (ext = chars ".kt") = False :=
    eq_false (fun hh => by
      have q := anyFalse h (chars ".kt") (by simp [supportedExts])
      rw [hh] at q
      simp at q)
  have ekts : (ext = chars ".kts") = False :=
    eq_false (fun hh => by
      have q := anyFalse h (chars ".kts") (by simp [supportedExts])
      rw [hh] at q
      simp at q)
  have eswift : (ext = chars ".swift") = False :=
    eq_false (fun hh => by
      have q := anyFalse h (chars ".swift") (by simp [supportedExts])
      rw [hh] at q
      simp at q)
  have ecs : (ext = chars ".cs") = False :=
    eq_false (fun hh => by
      have q := anyFalse h (chars ".cs") (by simp [supportedExts])
      rw [hh] at q
      simp at q)
  have ephp : (ext = chars ".php") = False :=
    eq_false (fun hh => by
      have q := anyFalse h (chars ".php") (by simp [supportedExts])
      rw [hh] at q
      simp at q)
  have elua : (ext = chars ".lua") = False :=
    eq_false (fun hh => by
      have q := anyFalse h (chars ".lua") (by simp [supportedExts])
      rw [hh] at q
      simp at q)
  have escala : (ext = chars ".scala") = False :=
    eq_false (fun hh => by
      have q := anyFalse h (chars ".scala") (by simp [supportedExts])
      rw [hh] at q
      simp at q)
  have eex : (ext = chars ".ex") = False :=
    eq_false (fun hh => by
      have q := anyFalse h (chars ".ex") (by simp [supportedExts])
      rw [hh] at q
      simp at q)
  have eexs : (ext = chars ".exs") = False :=
    eq_false (fun hh => by
      have q := anyFalse h (chars ".exs") (by simp [supportedExts])
      rw [hh] at q
      simp at q)
  have edart : (ext = chars ".dart") = False :=
    eq_false (fun hh => by
      have q := anyFalse h (chars ".dart") (by simp [supportedExts])
      rw [hh] at q
      simp at q)
  have ehs : (ext = chars ".hs") = False :=
    eq_false (fun hh => by
      have q := anyFalse h (chars ".hs") (by simp [supportedExts])
      rw [hh] at q
      simp at q)
  have eml : (ext = chars ".ml") = False :=
    eq_false (fun hh => by
      have q := anyFalse h (chars ".ml") (by simp [supportedExts])
      rw [hh] at q
      simp at q)
  have emli : (ext = chars ".mli") = False :=
    eq_false (fun hh => by
      have q := anyFalse h (chars ".mli") (by simp [supportedExts])
      rw [hh] at q
      simp at q)
  have enim : (ext = chars ".nim") = False :=
    eq_false (fun hh => by
      have q := anyFalse h (chars ".nim") (by simp [supportedExts])
      rw [hh] at q
      simp at q)
  have ed : (ext = chars ".d") = False :=
    eq_false (fun hh => by
      have q := anyFalse h (chars ".d") (by simp [supportedExts])
      rw [hh] at q
      simp at q)
  have ecr : (ext = chars ".cr") = False :=
    eq_false (fun hh => by
      have q := anyFalse h (chars ".cr") (by simp [supportedExts])
      rw [hh] at q
      simp at q)
  have eraku : (ext = chars ".raku") = False :=
    eq_false (fun hh => by
      have q := anyFalse h (chars ".raku") (by simp [supportedExts])
      rw [hh] at q
      simp at q)
  have erakumod : (ext = chars ".rakumod") = False :=
    eq_false (fun hh => by
      have q := anyFalse h (chars ".rakumod") (by simp [supportedExts])
      rw [hh] at q
      simp at q)
  have epm6 : (ext = chars ".pm6") = False :=
    eq_false (fun hh => by
      have q := anyFalse h (chars ".pm6") (by simp [supportedExts])
      rw [hh] at q
      simp at q)
  have ejl : (ext = chars ".jl") = False :=
    eq_false (fun hh => by
      have q := anyFalse h (chars ".jl") (by simp [supportedExts])
      rw [hh] at q
      simp at q)
  simp only [findToolInLines, epy, ejs, ers, ec, ecpp, ecc, ecxx, ego, ets, ezig, ejava, erb, ekt, ekts, eswift, ecs, ephp, elua, escala, eex, eexs, edart, ehs, eml, emli, enim, ed, ecr, eraku, erakumod, epm6, ejl, or_self, or_false, false_or,
    if_false]

theorem findToolInSource_unsupported {source name ext : Str}
    (h : supportedExts.any (fun k => decide (k = ext)) = false) :
    findToolInSource source name ext = none :=
  findToolInLines_unsupported h

end SpanLemmas

section JoinSplitLemmas

theorem splitLines_noNl_eq {l : Str} (h : '\n' ∉ l) (hne : l ≠ []) :
    splitLines l = [l] := by
  induction l with
  | nil => exact absurd rfl hne
  | cons c r ih =>
    have hc : c ≠ '\n' := fun hh => h (by simp [hh])
    rw [splitLines_cons hc]
    by_cases hr : r = []
    · subst hr; rfl
    · rw [ih (fun hh => h (List.mem_cons_of_mem c hh)) hr]

theorem splitLines_noNl_prepend {l : Str} (h : '\n' ∉ l) (r : Str) :
    splitLines (l ++ '\n' :: r) = l :: splitLines r := by
  induction l with
  | nil => simp [splitLines_newline]
  | cons c t ih =>
    have hc : c ≠ '\n' := fun hh => h (by simp [hh])
    rw [List.cons_append, splitLines_cons hc]
    rw [ih (fun hh => h (List.mem_cons_of_mem c hh))]

theorem joinLines_cons_cons (l m : Str) (t : List Str) :
    joinLines (l :: m :: t) = l ++ '\n' :: joinLines (m :: t) := by
  simp [joinLines, joinAux]

theorem join_split {M : List Str} (h : ∀ l ∈ M, '\n' ∉ l) :
    splitLines (joinLines M) = dropFinalEmpty M := by
  induction M with
  | nil => rfl
  | cons l ls ih =>
    cases ls with
    | nil =>
      show splitLines (l ++ joinAux []) = dropFinalEmpty [l]
      by_cases hl : l = []
      · subst hl; rfl
      · simp only [joinAux, List.append_nil]
        rw [splitLines_noNl_eq (h l (by simp)) hl]
        simp [dropFinalEmpty, hl]
    | cons m t =>
      rw [joinLines_cons_cons]
      rw [splitLines_noNl_prepend (h l (by simp))]
      rw [ih (fun x hx => h x (List.mem_cons_of_mem l hx))]
      rfl

theorem neFilter_dropFinalEmpty (M : List Str) :
    neFilter (dropFinalEmpty M) = neFilter M := by
  induction M with
  | nil => rfl
  | cons l ls ih =>
    cases ls with
    | nil =>
      cases l with
      | nil => rfl
      | cons c t => rfl
    | cons m t =>
      show neFilter (l :: dropFinalEmpty (m :: t)) = neFilter (l :: m :: t)
      simp only [neFilter, List.filter] at ih ⊢
      rw [ih]

theorem splitLines_mem_noNl {cs l : Str} (h : l ∈ splitLines cs) :
    '\n' ∉ l := by
  induction cs generalizing l with
  | nil => simp [splitLines] at h
  | cons c r ih =>
    by_cases hc : c = '\n'
    · subst hc
      rw [splitLines_newline] at h
      rcases List.mem_cons.mp h with rfl | h2
      · simp
      · exact ih h2
    · rw [splitLines_cons hc] at h
      cases hsp : splitLines r with
      | nil =>
        rw [hsp] at h
        rcases List.mem_cons.mp h with rfl | h2
        · intro hmem
          simp at hmem
          exact hc hmem.symm
        · simp at h2
      | cons l0 ls =>
        rw [hsp] at h
        rcases List.mem_cons.mp h with rfl | h2
        · have hl0 : '\n' ∉ l0 := ih (by rw [hsp]; simp)
          intro hmem
          rcases List.mem_cons.mp hmem with hh | hh
          · exact hc hh.symm
          · exact hl0 hh
        · exact ih (by rw [hsp]; exact List.mem_cons_of_mem l0 h2)

theorem lastChar_cons_ne {c : Char} {x : Str} (h : x ≠ []) :
    lastChar (c :: x) = lastChar x := by
  cases x with
  | nil => exact absurd rfl h
  | cons d t => rfl

theorem lastChar_append_ne (a : Str) {b : Str} (h : b ≠ []) :
    lastChar (a ++ b) = lastChar b := by
  induction a with
  | nil => rfl
  | cons c t ih =>
    rw [List.cons_append, lastChar_cons_ne, ih]
    intro hh
    rcases List.append_eq_nil.mp hh with ⟨_, hb⟩
    exact h hb

theorem joinLines_last {M : List Str} {l : Str} (hg : M.getLast? = some l)
    (hl : l ≠ []) : joinLines M ≠ [] ∧ lastChar (joinLines M) = lastChar l := by
  induction M with
  | nil => simp at hg
  | cons m ls ih =>
    cases ls with
    | nil =>
      simp only [List.getLast?_singleton, Option.some.injEq] at hg
      subst hg
      exact ⟨by simp [joinLines, joinAux, hl], by simp [joinLines, joinAux]⟩
    | cons m2 t =>
      have hg2 : (m2 :: t).getLast? = some l := by
        rw [← hg]
        rfl
      obtain ⟨hne, hlast⟩ := ih hg2
      rw [joinLines_cons_cons]
      constructor
      · simp
      · rw [lastChar_append_ne _ (by simp), lastChar_cons_ne hne, hlast]

theorem neFilter_cons_nil (M : List Str) : neFilter ([] :: M) = neFilter M :=
  rfl

theorem firstLine_newline (x : Str) : firstLine ('\n' :: x) = [] := by
  simp [firstLine]

theorem firstLine_cons {c : Char} (hc : c ≠ '\n') (x : Str) :
    firstLine (c :: x) = c :: firstLine x := by
  simp [firstLine, hc]

theorem strStarts_append_drop {p cs : Str} (h : strStarts p cs = true) :
    cs = p ++ cs.drop p.length := by
  induction p generalizing cs with
  | nil => simp
  | cons a ps ih =>
    cases cs with
    | nil => simp [strStarts] at h
    | cons c r =>
      simp only [strStarts, Bool.and_eq_true, decide_eq_true_eq] at h
      obtain ⟨rfl, h2⟩ := h
      simp only [List.cons_append, List.length_cons, List.drop_succ_cons]
      exact congrArg (List.cons a) (ih h2)

theorem replaceQuadF_nil (n : Nat) : replaceQuadF n [] = [] := by
  cases n with
  | zero => rfl
  | succ n => rfl

theorem replaceQuadF_props :
    ∀ n (cs : Str), cs.length ≤ n →
      neFilter (splitLines (replaceQuadF n cs)) = neFilter (splitLines cs) ∧
        firstLine (replaceQuadF n cs) = firstLine cs ∧
        (replaceQuadF n cs = [] ↔ cs = []) := by
  intro n
  induction n with
  | zero => intro cs hlen; exact ⟨rfl, rfl, Iff.rfl⟩
  | succ n ih =>
    intro cs hlen
    by_cases hq : strStarts quadNl cs = true
    · have hcs := strStarts_append_drop hq
      rw [show quadNl.length = 4 from rfl] at hcs
      have hquad : (quadNl ++ cs.drop 4 : Str) =
          '\n' :: '\n' :: '\n' :: '\n' :: cs.drop 4 := rfl
      have hlen2 : (cs.drop 4).length ≤ n := by
        simp only [List.length_drop]
        have h4 : 4 ≤ cs.length := by
          conv_rhs => rw [hcs]
          simp [quadNl]
        omega
      obtain ⟨h1, h2, h3⟩ := ih (cs.drop 4) hlen2
      have hred : replaceQuadF (n + 1) cs =
          triNl ++ replaceQuadF n (cs.drop 4) := by
        simp [replaceQuadF, hq]
      have htri : (triNl ++ replaceQuadF n (cs.drop 4) : Str) =
          '\n' :: '\n' :: '\n' :: replaceQuadF n (cs.drop 4) := rfl
      refine ⟨?_, ?_, ?_⟩
      · rw [hred, htri]
        conv_rhs => rw [hcs, hquad]
        simp only [splitLines_newline, neFilter_cons_nil]
        exact h1
      · rw [hred, htri, firstLine_newline]
        conv_rhs => rw [hcs, hquad]
        rw [firstLine_newline]
      · rw [hred, htri]
        constructor
        · intro hh; simp at hh
        · intro hh
          rw [hh] at hq
          simp [strStarts, quadNl] at hq
    · cases cs with
      | nil => exact ⟨rfl, rfl, Iff.rfl⟩
      | cons c r =>
        have hred : replaceQuadF (n + 1) (c :: r) = c :: replaceQuadF n r := by
          simp [replaceQuadF, hq]
        have hlen2 : r.length ≤ n := by
          simp only [List.length_cons] at hlen
          omega
        obtain ⟨h1, h2, h3⟩ := ih r hlen2
        by_cases hc : c = '\n'
        · subst hc
          refine ⟨?_, ?_, ?_⟩
          · rw [hred]
            simp only [splitLines_newline, neFilter_cons_nil]
            exact h1
          · rw [hred, firstLine_newline, firstLine_newline]
          · rw [hred]
            simp
        · by_cases hr : r = []
          · subst hr
            rw [replaceQuadF_nil] at hred
            refine ⟨by rw [hred], by rw [hred], by rw [hred]⟩
          · have hrq : replaceQuadF n r ≠ [] := fun hh => hr (h3.mp hh)
            have hsp1 := splitLines_head hrq
            have hsp2 := splitLines_head hr
            refine ⟨?_, ?_, ?_⟩
            · rw [hred]
              rw [splitLines_cons hc, splitLines_cons hc]
              cases hq1 : splitLines (replaceQuadF n r) with
              | nil => exact absurd hq1 (splitLines_ne_nil hrq)
              | cons lq tq =>
                cases hq2 : splitLines r with
                | nil => exact absurd hq2 (splitLines_ne_nil hr)
                | cons lr tr =>
                  rw [hq1] at hsp1
                  rw [hq2] at hsp2
                  simp only [List.head?_cons, Option.some.injEq] at hsp1 hsp2
                  have hlq : lq = lr := by rw [hsp1, hsp2, h2]
                  subst hlq
                  rw [hq1, hq2] at h1
                  simp only [neFilter, List.filter] at h1 ⊢
                  cases hlr : lq.isEmpty with
                  | true =>
                    simp only [hlr, Bool.not_true] at h1 ⊢
                    simpa using h1
                  | false =>
                    simp only [hlr, Bool.not_false] at h1 ⊢
                    simp only [List.cons.injEq] at h1
                    simp [h1.2]
            · rw [hred, firstLine_cons hc, firstLine_cons hc, h2]
            · rw [hred]
              simp

theorem replaceQuad_props (cs : Str) :
    neFilter (splitLines (replaceQuad cs)) = neFilter (splitLines cs) ∧
      firstLine (replaceQuad cs) = firstLine cs ∧
      (replaceQuad cs = [] ↔ cs = []) :=
  replaceQuadF_props cs.length cs le_rfl

theorem collapseFuel_neFilter (k : Nat) (cs : Str) :
    neFilter (splitLines (collapseFuel k cs)) = neFilter (splitLines cs) := by
  induction k generalizing cs with
  | zero => rfl
  | succ k ih =>
    simp only [collapseFuel]
    split
    · rw [ih (replaceQuad cs), (replaceQuad_props cs).1]
    · rfl

theorem collapseBlank_neFilter (cs : Str) :
    neFilter (splitLines (collapseBlank cs)) = neFilter (splitLines cs) :=
  collapseFuel_neFilter cs.length cs

theorem collapseBlank_noQuad {cs : Str} (h : occursSub quadNl cs = false) :
    collapseBlank cs = cs := by
  unfold collapseBlank
  cases cs.length with
  | zero => rfl
  | succ n => simp [collapseFuel, h]

theorem replaceQuadF_last :
    ∀ n {cs : Str}, cs ≠ [] → lastChar cs ≠ some '\n' →
      replaceQuadF n cs ≠ [] ∧ lastChar (replaceQuadF n cs) = lastChar cs := by
  intro n
  induction n with
  | zero => intro cs hne hl; exact ⟨hne, rfl⟩
  | succ n ih =>
    intro cs hne hl
    by_cases hq : strStarts quadNl cs = true
    · have hcs := strStarts_append_drop hq
      rw [show quadNl.length = 4 from rfl] at hcs
      have hred : replaceQuadF (n + 1) cs =
          triNl ++ replaceQuadF n (cs.drop 4) := by
        simp [replaceQuadF, hq]
      have hr : cs.drop 4 ≠ [] := by
        intro hh
        rw [hh] at hcs
        rw [List.append_nil] at hcs
        rw [hcs] at hl
        exact hl rfl
      have hlast : lastChar cs = lastChar (cs.drop 4) := by
        conv_lhs => rw [hcs]
        exact lastChar_append_ne _ hr
      obtain ⟨h1, h2⟩ := ih hr (by rw [← hlast]; exact hl)
      constructor
      · rw [hred]; simp [triNl]
      · rw [hred, lastChar_append_ne _ h1, h2, hlast]
    · cases cs with
      | nil => exact absurd rfl hne
      | cons c r =>
        have hred : replaceQuadF (n + 1) (c :: r) = c :: replaceQuadF n r := by
          simp [replaceQuadF, hq]
        by_cases hr : r = []
        · subst hr
          rw [replaceQuadF_nil] at hred
          exact ⟨by rw [hred]; simp, by rw [hred]⟩
        · obtain ⟨h1, h2⟩ := ih hr (by rw [← lastChar_cons_ne (c := c) hr]; exact hl)
          constructor
          · rw [hred]; simp
          · rw [hred, lastChar_cons_ne h1, h2, lastChar_cons_ne hr]

theorem collapseFuel_last (k : Nat) {cs : Str} (hne : cs ≠ [])
    (hl : lastChar cs ≠ some '\n') :
    collapseFuel k cs ≠ [] ∧ lastChar (collapseFuel k cs) = lastChar cs := by
  induction k generalizing cs with
  | zero => exact ⟨hne, rfl⟩
  | succ k ih =>
    simp only [collapseFuel]
    split
    · have hq2 := replaceQuadF_last cs.length hne hl
      have h1 : replaceQuad cs ≠ [] := hq2.1
      have h2 : lastChar (replaceQuad cs) = lastChar cs := hq2.2
      obtain ⟨h3, h4⟩ := @ih (replaceQuad cs) h1 (by rw [h2]; exact hl)
      exact ⟨h3, by rw [h4, h2]⟩
    · exact ⟨hne, rfl⟩

theorem collapseBlank_last {cs : Str} (hne : cs ≠ [])
    (hl : lastChar cs ≠ some '\n') :
    collapseBlank cs ≠ [] ∧ lastChar (collapseBlank cs) = lastChar cs :=
  collapseFuel_last cs.length hne hl

end JoinSplitLemmas

section SuccessLemmas

theorem removeToolFromSource_success {v : Str → Bool × Str}
    {source name lang m out : Str} {s e : Nat} {t : Str}
    (hf : findToolInSource source name lang = some (s, e, t))
    (hrun : removeToolFromSource v source name lang = (true, m, out)) :
    out = collapseBlank (joinLines
      ((splitLines source).take s ++ (splitLines source).drop e)) := by
  by_cases hlang : lang = chars ".py"
  · subst hlang
    simp only [removeToolFromSource, hf, eq_self_iff_true, if_true] at hrun
    split at hrun
    · simp only [Prod.mk.injEq, true_and] at hrun
      exact hrun.2.symm
    · simp at hrun
  · simp only [removeToolFromSource, hf, if_neg hlang, Prod.mk.injEq,
      true_and] at hrun
    exact hrun.2.symm

theorem replaceToolInSource_success {v : Str → Bool × Str}
    {source name code lang m out : Str} {s e : Nat} {t : Str}
    (hf : findToolInSource source name lang = some (s, e, t))
    (hrun : replaceToolInSource v source name code lang = (true, m, out)) :
    out = joinLines ((splitLines source).take s ++ splitLines code ++
      (splitLines source).drop e) := by
  by_cases hlang : lang = chars ".py"
  · subst hlang
    simp only [replaceToolInSource, hf, eq_self_iff_true, if_true] at hrun
    split at hrun
    · simp only [Prod.mk.injEq, true_and] at hrun
      exact hrun.2.symm
    · simp at hrun
  · simp only [replaceToolInSource, hf, if_neg hlang, Prod.mk.injEq,
      true_and] at hrun
    exact hrun.2.symm

theorem injectToolIntoPythonFile_success {v : Str → Bool × Str}
    {path backup source name code m out : Str}
    (hrun : injectToolIntoPythonFile v path backup source name code =
      (true, m, out)) :
    checkToolExists source name = false ∧
      out = source ++ chars "\n\n# Tool injected by universal-mcp-admin\n" ++
        code ++ chars "\n" := by
  by_cases hc : checkToolExists source name = true
  · simp [injectToolIntoPythonFile, hc] at hrun
  · have hc2 : checkToolExists source name = false := by
      cases h : checkToolExists source name
      · rfl
      · exact absurd h hc
    refine ⟨hc2, ?_⟩
    simp only [injectToolIntoPythonFile, hc2, Bool.false_eq_true,
      if_false] at hrun
    split at hrun
    · simp at hrun
    · split at hrun
      · simp at hrun
      · simp only [Prod.mk.injEq, true_and] at hrun
        exact hrun.2.symm

theorem lastChar_mem {cs : Str} {c : Char} (h : lastChar cs = some c) :
    c ∈ cs := by
  induction cs with
  | nil => simp [lastChar] at h
  | cons a t ih =>
    cases t with
    | nil =>
      simp only [lastChar, Option.some.injEq] at h
      simp [h]
    | cons b u =>
      have : lastChar (a :: b :: u) = lastChar (b :: u) := rfl
      rw [this] at h
      exact List.mem_cons_of_mem a (ih h)

theorem getLastQ_mem {α : Type} {l : List α} {a : α} (h : l.getLast? = some a) :
    a ∈ l := by
  induction l with
  | nil => simp at h
  | cons x t ih =>
    cases t with
    | nil =>
      simp only [List.getLast?_singleton, Option.some.injEq] at h
      simp [h]
    | cons y u =>
      have h2 : (y :: u).getLast? = some a := by rw [← h]; rfl
      exact List.mem_cons_of_mem x (ih h2)

theorem noNl_lastChar_ne {l : Str} (h : '\n' ∉ l) :
    lastChar l ≠ some '\n' := by
  intro hh
  exact h (lastChar_mem hh)

theorem rmatchF_lit {fuel : Nat} {p : Str} {ts : List RTok} {cs : Str}
    (h : rmatchF fuel (.lit p :: ts) cs = true) : strStarts p cs = true := by
  cases fuel with
  | zero => simp [rmatchF] at h
  | succ n =>
    simp only [rmatchF, Bool.and_eq_true] at h
    exact h.1

theorem rsearchF_lit_occurs {p : Str} {ts : List RTok} :
    ∀ {fuel : Nat} {cs : Str}, rsearchF fuel (.lit p :: ts) cs = true →
      occursSub p cs = true := by
  intro fuel
  induction fuel with
  | zero => intro cs h; simp [rsearchF] at h
  | succ n ih =>
    intro cs h
    simp only [rsearchF, Bool.or_eq_true] at h
    rcases h with h | h
    · have hs := rmatchF_lit
        (show rmatchF _ (.lit p :: ts) cs = true from h)
      cases cs with
      | nil => exact hs
      | cons c r => simp [occursSub, hs]
    · cases cs with
      | nil => simp at h
      | cons c r => simp [occursSub, ih h]

theorem pyDefMatch_occurs {name l : Str} (h : pyDefMatch name l = true) :
    occursSub (chars "def") l = true :=
  rsearchF_lit_occurs h

theorem pyDefMatch_nil (name : Str) : pyDefMatch name [] = false := by
  cases h : pyDefMatch name [] with
  | false => rfl
  | true =>
    have h2 := pyDefMatch_occurs h
    have h3 : occursSub (chars "def") ([] : Str) = false := by rfl
    rw [h2] at h3
    exact absurd h3 (by simp)

theorem pyDefMatch_comment (name : Str) :
    pyDefMatch name (chars "# Tool injected by universal-mcp-admin") =
      false := by
  cases h : pyDefMatch name (chars "# Tool injected by universal-mcp-admin")
    with
  | false => rfl
  | true =>
    have h2 := pyDefMatch_occurs h
    have h3 : occursSub (chars "def")
        (chars "# Tool injected by universal-mcp-admin") = false := by rfl
    rw [h2] at h3
    exact absurd h3 (by simp)

end SuccessLemmas

section ClaimC6C7C8

/-- C6: the specification requires `Locate("foo")` on the literal Ruby
buffer `"def foo\n  1\nend\n\ndef bar\n  2\nend\n"` to span lines 0–2,
but `find_tool_in_source` returns NotFound (`none`): the Ruby pattern
demands `'('` or a literal `'\n'` after the name, and lines produced by
`splitlines` never contain either for a paren-less `def`.  This theorem
evaluates the code at the failing input. -/
theorem claim_C6_ruby_locator_returns_notfound :
    findToolInSource (chars "def foo\n  1\nend\n\ndef bar\n  2\nend\n")
      (chars "foo") (chars ".rb") = none := by rfl

/-- C7 (amended): an operation on an extension outside the handler table
is rejected without any validation — `inject_tool_generic` returns the
uniform UnsupportedLanguage message listing the supported set (for any
handler, so no validator can have run), while `remove_tool_from_source`
and `replace_tool_in_source` instead fall through the locator dispatch
and report NotFound, also without validating. -/
theorem claim_C7_unsupported_extension_dispatch
    (handler : Str → Str → Str → Bool × Str × Str)
    (v : Str → Bool × Str) (source name code ext : Str)
    (h : supportedExts.any (fun k => decide (k = ext)) = false) :
    injectToolGeneric handler ext source name code =
        (false, unsupportedMsg ext, source) ∧
      removeToolFromSource v source name ext =
        (false, notFoundMsg name, source) ∧
      replaceToolInSource v source name code ext =
        (false, notFoundMsg name, source) := by
  refine ⟨?_, ?_, ?_⟩
  · simp only [injectToolGeneric, h, Bool.false_eq_true, if_false]
  · rw [removeToolFromSource, findToolInSource_unsupported h]
  · rw [replaceToolInSource, findToolInSource_unsupported h]

/-- Witness for C7: the `.xyz` extension is unsupported, and injection
through the dispatcher reports the UnsupportedLanguage listing. -/
theorem claim_C7_unsupported_extension_dispatch_witness :
    supportedExts.any (fun k => decide (k = chars ".xyz")) = false ∧
      injectToolGeneric (fun s _ _ => (true, ([] : Str), s)) (chars ".xyz")
          (chars "x = 1") (chars "foo") (chars "def foo(): pass") =
        (false, unsupportedMsg (chars ".xyz"), chars "x = 1") :=
  ⟨by decide,
    (claim_C7_unsupported_extension_dispatch _ (fun _ => (true, []))
        (chars "x = 1") (chars "foo") (chars "def foo(): pass")
        (chars ".xyz") (by decide)).1⟩

/-- C7 (counterexample): on the unsupported extension `.xyz`, a remove
returns the NotFound message, not the UnsupportedLanguage error listing
the supported extensions that the claim requires for every operation. -/
theorem claim_C7_counterexample :
    removeToolFromSource (fun _ => (true, [])) (chars "def foo():\n    pass\n")
        (chars "foo") (chars ".xyz") =
      (false, chars "Tool 'foo' not found in source",
        chars "def foo():\n    pass\n") ∧
      chars "Tool 'foo' not found in source" ≠ unsupportedMsg (chars ".xyz") :=
  ⟨by rfl, by decide⟩

/-- C8: every span returned by the locator, for every language, buffer
and name, satisfies `0 ≤ start ≤ end ≤ len(lines)`, and the extracted
text equals the newline-join of the lines in `[start, end)`. -/
theorem claim_C8_locator_span_invariant (source name lang : Str) (s e : Nat)
    (t : Str) (h : findToolInSource source name lang = some (s, e, t)) :
    0 ≤ s ∧ s ≤ e ∧ e ≤ (splitLines source).length ∧
      t = joinLines (slice (splitLines source) s e) := by
  obtain ⟨h1, h2, h3⟩ := findToolInSource_spec h
  exact ⟨Nat.zero_le s, h1, h2, h3⟩

/-- Witness for C8 at a concrete Python buffer: the located span is
`[0, 2)` of a 2-line buffer and the text is the join of those lines. -/
theorem claim_C8_locator_span_invariant_witness :
    0 ≤ 0 ∧ (0 : Nat) ≤ 2 ∧
      2 ≤ (splitLines (chars "def foo():\n    return 1\n")).length ∧
      chars "def foo():\n    return 1" =
        joinLines (slice (splitLines (chars "def foo():\n    return 1\n")) 0 2) :=
  claim_C8_locator_span_invariant (chars "def foo():\n    return 1\n")
    (chars "foo") (chars ".py") 0 2 (chars "def foo():\n    return 1") (by rfl)

end ClaimC6C7C8

section ClaimC3C4C5

/-- C4 (amended): when the `node` binary is missing, the JavaScript
validator returns invalid with the "Node.js not found" hint, and the
injection pipeline fails, prefixing the message with "Invalid JavaScript
code:" — the missing toolchain blocks the operation and is conflated
with an invalid candidate instead of being attached as a warning. -/
theorem claim_C4_toolchain_unavailable_blocks_injection
    (path backup source name code : Str)
    (h : checkToolExistsJavascript source name = false) :
    injectToolIntoJavascriptFile (fun _ => ProcResult.missing) path backup
        source name code =
      (false,
        chars "Invalid JavaScript code: Node.js not found. Please install Node.js to validate JavaScript code.",
        source) := by
  simp only [injectToolIntoJavascriptFile, h, Bool.false_eq_true, if_false,
    validateJavascriptCode]
  rfl

/-- Witness for C4: with `node` absent, injecting a syntactically trivial
function into a one-line source fails with the conflated message. -/
theorem claim_C4_toolchain_unavailable_blocks_injection_witness :
    checkToolExistsJavascript (chars "const x = 1;\n") (chars "foo") = false ∧
      injectToolIntoJavascriptFile (fun _ => ProcResult.missing) (chars "p")
          (chars "b") (chars "const x = 1;\n") (chars "foo")
          (chars "function foo() { return 1; }") =
        (false,
          chars "Invalid JavaScript code: Node.js not found. Please install Node.js to validate JavaScript code.",
          chars "const x = 1;\n") :=
  ⟨by rfl,
    claim_C4_toolchain_unavailable_blocks_injection (chars "p") (chars "b")
      (chars "const x = 1;\n") (chars "foo")
      (chars "function foo() { return 1; }") (by rfl)⟩

/-- C4 (counterexample): a missing toolchain DOES cause the operation to
fail, reported as the candidate code being invalid, contradicting the
claim that `ToolchainUnavailable` never blocks and is never conflated
with a syntax error.  The candidate holds an obviously definition-shaped
token, so any Tier-1 presence check in the spec's sense passes. -/
theorem claim_C4_counterexample :
    (injectToolIntoJavascriptFile (fun _ => ProcResult.missing)
        (chars "server.js") (chars "server.js.bak") (chars "let y = 2;\n")
        (chars "bar") (chars "function bar() { return 2; }")).1 = false ∧
      (injectToolIntoJavascriptFile (fun _ => ProcResult.missing)
          (chars "server.js") (chars "server.js.bak") (chars "let y = 2;\n")
          (chars "bar") (chars "function bar() { return 2; }")).2.1 =
        chars "Invalid JavaScript code: Node.js not found. Please install Node.js to validate JavaScript code." :=
  ⟨by rfl, by rfl⟩

/-- C5 (counterexample): `foo` is defined as a plain function declaration
(no return annotation, no decorator), yet injection proceeds with
`applied = true` and the output buffer holds two `def foo(` lines — the
probe under-matches and a duplicate is silently created. -/
theorem claim_C5_counterexample :
    nameDefinedAsFunction (chars "def foo(x):\n    return x\n")
        (chars "foo") = true ∧
      (injectToolIntoPythonFile (fun _ => (true, [])) (chars "p") (chars "b")
          (chars "def foo(x):\n    return x\n") (chars "foo")
          (chars "def foo(y):\n    return y")).1 = true ∧
      ((splitLines (injectToolIntoPythonFile (fun _ => (true, [])) (chars "p")
            (chars "b") (chars "def foo(x):\n    return x\n") (chars "foo")
            (chars "def foo(y):\n    return y")).2.2).filter
          (fun l => pyDefMatch (chars "foo") l)).length = 2 :=
  ⟨by rfl, by rfl, by rfl⟩

/-- C5 (amended): whenever the probe `check_tool_exists` reports the name
as existing (decorated tool registration or annotated `def`), injection
returns `applied = false` with the AlreadyExists message and the buffer
unmodified; but the probe misses a plain `def N(...):` without a return
annotation, so in that case a duplicate is silently created. -/
theorem claim_C5_duplicate_rejection (v : Str → Bool × Str)
    (path backup source name code : Str)
    (h : checkToolExists source name = true) :
    injectToolIntoPythonFile v path backup source name code =
      (false, alreadyExistsMsg name path, source) := by
  simp only [injectToolIntoPythonFile, h, if_true]

/-- Witness for C5: a decorated, annotated tool definition is caught by
the probe and injection is rejected with the buffer unchanged. -/
theorem claim_C5_duplicate_rejection_witness :
    checkToolExists (chars "@mcp.tool()\ndef foo(x) -> int:\n    return x\n")
        (chars "foo") = true ∧
      injectToolIntoPythonFile (fun _ => (true, [])) (chars "p") (chars "b")
          (chars "@mcp.tool()\ndef foo(x) -> int:\n    return x\n")
          (chars "foo") (chars "def foo(): pass") =
        (false, alreadyExistsMsg (chars "foo") (chars "p"),
          chars "@mcp.tool()\ndef foo(x) -> int:\n    return x\n") :=
  ⟨by rfl,
    claim_C5_duplicate_rejection (fun _ => (true, [])) (chars "p") (chars "b")
      (chars "@mcp.tool()\ndef foo(x) -> int:\n    return x\n") (chars "foo")
      (chars "def foo(): pass") (by rfl)⟩

/-- C3 (amended): only the Python branch post-validates.  For any other
language the result of remove/replace is independent of the validator
(no validation runs); for `.py`, success implies the returned buffer
passed the validator, and any failure returns the untouched original. -/
theorem claim_C3_postvalidation_python_only (v v2 : Str → Bool × Str)
    (source name code lang : Str) :
    (lang ≠ chars ".py" →
      removeToolFromSource v source name lang =
          removeToolFromSource v2 source name lang ∧
        replaceToolInSource v source name code lang =
          replaceToolInSource v2 source name code lang) ∧
      (∀ m out, removeToolFromSource v source name (chars ".py") =
          (true, m, out) → (v out).1 = true) ∧
      (∀ m out, replaceToolInSource v source name code (chars ".py") =
          (true, m, out) → (v out).1 = true) ∧
      (∀ m out, removeToolFromSource v source name lang = (false, m, out) →
        out = source) ∧
      (∀ m out, replaceToolInSource v source name code lang =
        (false, m, out) → out = source) := by
  refine ⟨?_, ?_, ?_, ?_, ?_⟩
  · intro hlang
    unfold removeToolFromSource replaceToolInSource
    cases findToolInSource source name lang with
    | none => exact ⟨rfl, rfl⟩
    | some r =>
      obtain ⟨s, e, t⟩ := r
      constructor
      · simp only [if_neg hlang]
      · simp only [if_neg hlang]
  · intro m out hrun
    cases hf : findToolInSource source name (chars ".py") with
    | none => simp [removeToolFromSource, hf] at hrun
    | some r =>
      obtain ⟨s, e, t⟩ := r
      simp only [removeToolFromSource, hf, eq_self_iff_true, if_true] at hrun
      split at hrun
      · rename_i hv
        simp only [Prod.mk.injEq, true_and] at hrun
        rw [← hrun.2, hv]
      · simp at hrun
  · intro m out hrun
    cases hf : findToolInSource source name (chars ".py") with
    | none => simp [replaceToolInSource, hf] at hrun
    | some r =>
      obtain ⟨s, e, t⟩ := r
      simp only [replaceToolInSource, hf, eq_self_iff_true, if_true] at hrun
      split at hrun
      · rename_i hv
        simp only [Prod.mk.injEq, true_and] at hrun
        rw [← hrun.2, hv]
      · simp at hrun
  · intro m out hrun
    cases hf : findToolInSource source name lang with
    | none =>
      simp only [removeToolFromSource, hf, Prod.mk.injEq, true_and] at hrun
      exact hrun.2.symm
    | some r =>
      obtain ⟨s, e, t⟩ := r
      by_cases hlang : lang = chars ".py"
      · subst hlang
        simp only [removeToolFromSource, hf, eq_self_iff_true, if_true] at hrun
        split at hrun
        · simp at hrun
        · simp only [Prod.mk.injEq, true_and] at hrun
          exact hrun.2.symm
      · simp only [removeToolFromSource, hf, if_neg hlang] at hrun
        simp at hrun
  · intro m out hrun
    cases hf : findToolInSource source name lang with
    | none =>
      simp only [replaceToolInSource, hf, Prod.mk.injEq, true_and] at hrun
      exact hrun.2.symm
    | some r =>
      obtain ⟨s, e, t⟩ := r
      by_cases hlang : lang = chars ".py"
      · subst hlang
        simp only [replaceToolInSource, hf, eq_self_iff_true, if_true] at hrun
        split at hrun
        · simp at hrun
        · simp only [Prod.mk.injEq, true_and] at hrun
          exact hrun.2.symm
      · simp only [replaceToolInSource, hf, if_neg hlang] at hrun
        simp at hrun

/-- Witness for C3: instantiates the amended theorem at `.js` with two
validators that disagree everywhere, and checks the Python rollback
clause on a concrete failing validator. -/
theorem claim_C3_postvalidation_python_only_witness :
    removeToolFromSource (fun _ => (true, []))
        (chars "function foo() \x7b\n\x7d\nlet a;\n") (chars "foo") (chars ".js") =
      removeToolFromSource (fun _ => (false, chars "boom"))
        (chars "function foo() \x7b\n\x7d\nlet a;\n") (chars "foo") (chars ".js") ∧
    removeToolFromSource (fun _ => (false, chars "boom"))
        (chars "def foo():\n    pass\nx = 1\n") (chars "foo") (chars ".py") =
      (false, chars "Removing tool would break syntax: boom",
        chars "def foo():\n    pass\nx = 1\n") :=
  ⟨(claim_C3_postvalidation_python_only (fun _ => (true, []))
      (fun _ => (false, chars "boom"))
      (chars "function foo() \x7b\n\x7d\nlet a;\n") (chars "foo") [] (chars ".js")
      |>.1 (by decide)).1,
    by rfl⟩

/-- C3 (counterexample): the `.js` handler table entry has a validator,
yet a remove that leaves the syntactically broken buffer `"}"` reports
`applied = true` — identically under a validator that rejects everything,
so no post-validation ran — while that buffer fails
`validate_javascript_code` under a node that rejects it. -/
theorem claim_C3_counterexample :
    handlerHasValidator (chars ".js") = true ∧
      removeToolFromSource (fun _ => (false, chars "always invalid"))
          (chars "function foo() \x7b\n  var s = \"\x7d\";\n\x7d") (chars "foo")
          (chars ".js") =
        (true, removedMsg (chars "foo") 0 2, chars "\x7d") ∧
      (validateJavascriptCode
          (fun c =>
            if c = chars "\x7d" then
              ProcResult.ran 1 (chars "SyntaxError: Unexpected token") []
            else ProcResult.ran 0 [] [])
          (chars "\x7d")).1 = false :=
  ⟨by rfl, by rfl, by rfl⟩

end ClaimC3C4C5

section ClaimC9C2C10

/-- C9 (counterexample): the input ends with a newline and the removal
succeeds, yet the output also ends with a newline, because the blank
line above the removed span becomes the last element of the joined line
list — refuting "the successful output does not end with a newline". -/
theorem claim_C9_counterexample :
    lastChar (chars "x = 1\n\ndef foo():\n    pass\n") = some '\n' ∧
      removeToolFromSource (fun _ => (true, []))
          (chars "x = 1\n\ndef foo():\n    pass\n") (chars "foo")
          (chars ".py") =
        (true, removedMsg (chars "foo") 2 4, chars "x = 1\n") ∧
      lastChar (chars "x = 1\n") = some '\n' :=
  ⟨by rfl, by rfl, by rfl⟩

/-- C9 (amended): remove and replace rebuild the buffer as the
newline-join of the edited line list, so the input's trailing newline is
dropped whenever that list ends with a non-empty line; when it ends with
an empty line (e.g. a blank line just above the removed span) the output
does end with a newline. -/
theorem claim_C9_final_newline_join_semantics (v : Str → Bool × Str)
    (source name code lang m m2 out out2 : Str) (s e : Nat) (t l l2 : Str)
    (hf : findToolInSource source name lang = some (s, e, t)) :
    (removeToolFromSource v source name lang = (true, m, out) →
      ((splitLines source).take s ++ (splitLines source).drop e).getLast? =
        some l → l ≠ [] → lastChar out ≠ some '\n') ∧
      (replaceToolInSource v source name code lang = (true, m2, out2) →
        ((splitLines source).take s ++ splitLines code ++
          (splitLines source).drop e).getLast? = some l2 → l2 ≠ [] →
        lastChar out2 ≠ some '\n') := by
  constructor
  · intro hrun hg hl
    have hout := removeToolFromSource_success hf hrun
    have hmem := getLastQ_mem hg
    have hnl : '\n' ∉ l := by
      rcases List.mem_append.mp hmem with h | h
      · exact splitLines_mem_noNl (List.take_subset _ _ h)
      · exact splitLines_mem_noNl (List.drop_subset _ _ h)
    have hlast := joinLines_last hg hl
    have hcol := collapseBlank_last hlast.1
      (by rw [hlast.2]; exact noNl_lastChar_ne hnl)
    rw [hout, hcol.2, hlast.2]
    exact noNl_lastChar_ne hnl
  · intro hrun hg hl
    have hout := replaceToolInSource_success hf hrun
    have hmem := getLastQ_mem hg
    have hnl : '\n' ∉ l2 := by
      rcases List.mem_append.mp hmem with h | h
      · rcases List.mem_append.mp h with h2 | h2
        · exact splitLines_mem_noNl (List.take_subset _ _ h2)
        · exact splitLines_mem_noNl h2
      · exact splitLines_mem_noNl (List.drop_subset _ _ h)
    have hlast := joinLines_last hg hl
    rw [hout, hlast.2]
    exact noNl_lastChar_ne hnl

/-- Witness for C9: removing `foo` from a buffer whose residual last line
is the non-blank `x = 1` yields an output without a trailing newline. -/
theorem claim_C9_final_newline_join_semantics_witness :
    lastChar (chars "x = 1") ≠ some '\n' :=
  (claim_C9_final_newline_join_semantics (fun _ => (true, []))
      (chars "def foo():\n    pass\nx = 1\n") (chars "foo") (chars "pass")
      (chars ".py") (removedMsg (chars "foo") 0 2) [] (chars "x = 1") []
      0 2 (chars "def foo():\n    pass") (chars "x = 1") []
      (by rfl)).1 (by rfl) (by rfl) (by decide)

/-- C2 (counterexample): a run of three blank lines entirely outside the
removed span is collapsed to two, so the output's line list is not the
concatenation of the lines outside the span — a line outside the span is
not preserved. -/
theorem claim_C2_counterexample :
    removeToolFromSource (fun _ => (true, []))
        (chars "a = 1\n\n\n\nb = 2\ndef foo():\n    pass\n") (chars "foo")
        (chars ".py") =
      (true, removedMsg (chars "foo") 5 7, chars "a = 1\n\n\nb = 2") ∧
      splitLines (chars "a = 1\n\n\nb = 2") ≠
        (splitLines (chars "a = 1\n\n\n\nb = 2\ndef foo():\n    pass\n")).take
            5 ++
          (splitLines (chars "a = 1\n\n\n\nb = 2\ndef foo():\n    pass\n")).drop
            7 :=
  ⟨by rfl, by decide⟩

/-- C2 (amended): Inject preserves every original line as a prefix of
the output's line list; Replace preserves every line outside the span
exactly (the output's line list is the outside lines around the new code,
up to one trailing empty line absorbed by the final join); Remove
preserves every non-blank line outside the span in order, while runs of
blank lines may be collapsed. -/
theorem claim_C2_outside_span_preservation (v : Str → Bool × Str)
    (path backup source name code lang m m2 m3 out out2 out3 : Str)
    (s e : Nat) (t : Str) :
    (injectToolIntoPythonFile v path backup source name code =
        (true, m, out) → ∃ q, splitLines out = splitLines source ++ q) ∧
      (findToolInSource source name lang = some (s, e, t) →
        removeToolFromSource v source name lang = (true, m2, out2) →
        neFilter (splitLines out2) =
          neFilter ((splitLines source).take s ++
            (splitLines source).drop e)) ∧
      (findToolInSource source name lang = some (s, e, t) →
        replaceToolInSource v source name code lang = (true, m3, out3) →
        splitLines out3 = dropFinalEmpty ((splitLines source).take s ++
          splitLines code ++ (splitLines source).drop e)) := by
  refine ⟨?_, ?_, ?_⟩
  · intro hrun
    obtain ⟨hc, hout⟩ := injectToolIntoPythonFile_success hrun
    have h2 : out = source ++ '\n' ::
        (chars "\n# Tool injected by universal-mcp-admin\n" ++
          (code ++ chars "\n")) := by
      rw [hout]
      simp only [List.append_assoc]
      rfl
    rw [h2, splitLines_append_newline, splitLines_terminate]
    exact ⟨_, by rw [List.append_assoc]⟩
  · intro hf hrun
    have hout := removeToolFromSource_success hf hrun
    have hM : ∀ x ∈ (splitLines source).take s ++ (splitLines source).drop e,
        '\n' ∉ x := by
      intro x hx
      rcases List.mem_append.mp hx with h | h
      · exact splitLines_mem_noNl (List.take_subset _ _ h)
      · exact splitLines_mem_noNl (List.drop_subset _ _ h)
    rw [hout, collapseBlank_neFilter, join_split hM, neFilter_dropFinalEmpty]
  · intro hf hrun
    have hout := replaceToolInSource_success hf hrun
    have hM : ∀ x ∈ (splitLines source).take s ++ splitLines code ++
        (splitLines source).drop e, '\n' ∉ x := by
      intro x hx
      rcases List.mem_append.mp hx with h | h
      · rcases List.mem_append.mp h with h2 | h2
        · exact splitLines_mem_noNl (List.take_subset _ _ h2)
        · exact splitLines_mem_noNl h2
      · exact splitLines_mem_noNl (List.drop_subset _ _ h)
    rw [hout, join_split hM]

/-- Witness for C2: a successful remove on a concrete buffer preserves
its non-blank outside lines exactly. -/
theorem claim_C2_outside_span_preservation_witness :
    neFilter (splitLines (chars "x = 1")) =
      neFilter ((splitLines (chars "def foo():\n    pass\nx = 1\n")).take 0 ++
        (splitLines (chars "def foo():\n    pass\nx = 1\n")).drop 2) :=
  (claim_C2_outside_span_preservation (fun _ => (true, [])) (chars "p")
      (chars "b") (chars "def foo():\n    pass\nx = 1\n") (chars "foo")
      (chars "pass") (chars ".py") [] (removedMsg (chars "foo") 0 2) []
      [] (chars "x = 1") [] 0 2
      (chars "def foo():\n    pass")).2.1 (by rfl) (by rfl)

/-- C10 (counterexample): a buffer with a nested duplicate — two lines
match the definition pattern of `foo`, the second inside the body of the
first — loses both on removal, refuting "leaves any later duplicate
definitions of N in place". -/
theorem claim_C10_counterexample :
    ((splitLines (chars "def foo():\n    def foo():\n        pass\n")).filter
        (fun l => pyDefMatch (chars "foo") l)).length = 2 ∧
      removeToolFromSource (fun _ => (true, []))
          (chars "def foo():\n    def foo():\n        pass\n") (chars "foo")
          (chars ".py") =
        (true, removedMsg (chars "foo") 0 3, []) ∧
      ((splitLines ([] : Str)).filter
        (fun l => pyDefMatch (chars "foo") l)).length = 0 :=
  ⟨by rfl, by rfl, by rfl⟩

/-- C10 (amended): the Python locator deterministically returns the span
of the earliest line matching the definition pattern (every earlier line
fails the pattern), and a successful remove keeps every matching line
situated at or after the end of the removed span; matching lines inside
the span (nested definitions) are removed with it. -/
theorem claim_C10_earliest_match_removal (v : Str → Bool × Str)
    (source name m out : Str) (s e : Nat) (t : Str)
    (hf : findToolInSource source name (chars ".py") = some (s, e, t)) :
    (∃ i, firstMatch (pyDefMatch name) (splitLines source) = some i ∧
      s ≤ i ∧ i < e ∧
      ∀ j, j < i → pyDefMatch name (getLine (splitLines source) j) = false) ∧
      (removeToolFromSource v source name (chars ".py") = (true, m, out) →
        ∀ j, e ≤ j → j < (splitLines source).length →
        pyDefMatch name (getLine (splitLines source) j) = true →
        getLine (splitLines source) j ∈ splitLines out) := by
  have hfl : findPythonToolCore (pyDefMatch name) (splitLines source) =
      some (s, e, t) := by
    simpa [findToolInSource, findToolInLines, findPythonTool] using hf
  constructor
  · unfold findPythonToolCore at hfl
    cases hm : firstMatch (pyDefMatch name) (splitLines source) with
    | none => rw [hm] at hfl; simp at hfl
    | some i =>
      rw [hm] at hfl
      simp only [Option.some.injEq, Prod.mk.injEq] at hfl
      obtain ⟨rfl, rfl, rfl⟩ := hfl
      refine ⟨i, rfl, ?_, ?_, firstMatch_least hm⟩
      · exact le_trans (walkBack_le _ _ _)
          (le_trans (le_of_eq rfl) (walkBack_le _ _ _))
      · have h1 := indentEndScan_ge
          (indentOf (getLine (splitLines source) i))
          ((splitLines source).drop (i + 1)) (i + 1)
        have h2 := @trimBlank_ge (splitLines source) (i + 1) _ h1
        omega
  · intro hrun j hje hjlen hmatch
    have hout := removeToolFromSource_success hf hrun
    have hM : ∀ x ∈ (splitLines source).take s ++ (splitLines source).drop e,
        '\n' ∉ x := by
      intro x hx
      rcases List.mem_append.mp hx with h | h
      · exact splitLines_mem_noNl (List.take_subset _ _ h)
      · exact splitLines_mem_noNl (List.drop_subset _ _ h)
    have hfilter : neFilter (splitLines out) =
        neFilter ((splitLines source).take s ++ (splitLines source).drop e) := by
      rw [hout, collapseBlank_neFilter, join_split hM, neFilter_dropFinalEmpty]
    cases hq : (splitLines source).get? j with
    | none =>
      rw [List.get?_eq_none] at hq
      omega
    | some a =>
      have ha : getLine (splitLines source) j = a := by
        unfold getLine
        rw [hq]
        rfl
      have hdrop : ((splitLines source).drop e).get? (j - e) = some a := by
        rw [List.get?_drop]
        rw [show e + (j - e) = j by omega]
        exact hq
      have hmem : a ∈ (splitLines source).take s ++
          (splitLines source).drop e :=
        List.mem_append_right _ (List.get?_mem hdrop)
      have hane : a ≠ [] := by
        intro hh
        rw [ha, hh] at hmatch
        rw [pyDefMatch_nil] at hmatch
        exact absurd hmatch (by simp)
      have hinf : a ∈ neFilter ((splitLines source).take s ++
          (splitLines source).drop e) := by
        rw [neFilter, List.mem_filter]
        exact ⟨hmem, by simp [hane]⟩
      rw [← hfilter] at hinf
      rw [ha]
      exact List.mem_of_mem_filter hinf

/-- Witness for C10: on a buffer with two top-level definitions of `foo`,
the locator spans the first and the second survives removal. -/
theorem claim_C10_earliest_match_removal_witness :
    (∃ i, firstMatch (pyDefMatch (chars "foo"))
        (splitLines (chars "def foo():\n    return 1\n\ndef foo():\n    return 2\n")) =
          some i ∧ 0 ≤ i ∧ i < 2 ∧
        ∀ j, j < i → pyDefMatch (chars "foo")
          (getLine (splitLines
            (chars "def foo():\n    return 1\n\ndef foo():\n    return 2\n"))
            j) = false) ∧
      getLine (splitLines
          (chars "def foo():\n    return 1\n\ndef foo():\n    return 2\n")) 3 ∈
        splitLines (removeToolFromSource (fun _ => (true, []))
          (chars "def foo():\n    return 1\n\ndef foo():\n    return 2\n")
          (chars "foo") (chars ".py")).2.2 := by
  have h := claim_C10_earliest_match_removal (fun _ => (true, []))
    (chars "def foo():\n    return 1\n\ndef foo():\n    return 2\n")
    (chars "foo") (removedMsg (chars "foo") 0 2)
    (chars "\ndef foo():\n    return 2") 0 2
    (chars "def foo():\n    return 1") (by rfl)
  exact ⟨h.1, h.2 (by rfl) 3 (by decide) (by decide) (by rfl)⟩

end ClaimC9C2C10

section RoundTripLemmas

theorem getLine_append_right (A B : List Str) (k : Nat) :
    getLine (A ++ B) (A.length + k) = getLine B k := by
  unfold getLine
  rw [List.get?_append_right (Nat.le_add_right _ _)]
  rw [show A.length + k - A.length = k by omega]

theorem getLine_append_left {A : List Str} (B : List Str) {k : Nat}
    (hk : k < A.length) : getLine (A ++ B) k = getLine A k := by
  unfold getLine
  rw [List.get?_append hk]

theorem drop_append_cons (A : List Str) (x : Str) (B : List Str) :
    (A ++ x :: B).drop (A.length + 1) = B := by
  have h1 : A ++ x :: B = (A ++ [x]) ++ B := by simp
  have h2 : A.length + 1 = (A ++ [x]).length := by simp
  rw [h1, h2, List.drop_left]

theorem take_append_plus (A B : List Str) (k : Nat) :
    (A ++ B).take (A.length + k) = A ++ B.take k := by
  induction A with
  | nil => simp
  | cons a t ih => simp [List.take, ih, Nat.succ_add]

theorem indentEndScan_full {h : Nat} {rest : List Str}
    (hall : ∀ l ∈ rest, (stripStr l).isEmpty = true ∨ ¬(indentOf l ≤ h)) :
    ∀ e, indentEndScan h rest e = e + rest.length := by
  induction rest with
  | nil => intro e; simp [indentEndScan]
  | cons l ls ih =>
    intro e
    have hl := hall l (by simp)
    have hrest : ∀ x ∈ ls, (stripStr x).isEmpty = true ∨ ¬(indentOf x ≤ h) :=
      fun x hx => hall x (List.mem_cons_of_mem l hx)
    simp only [indentEndScan, List.length_cons]
    rcases hl with hb | hi
    · rw [if_pos hb, ih hrest]
      omega
    · by_cases hb : (stripStr l).isEmpty = true
      · rw [if_pos hb, ih hrest]
        omega
      · rw [if_neg hb, if_neg hi, ih hrest]
        omega

theorem trimBlank_blank {lines : List Str} {lo : Nat} :
    ∀ e0 k, trimBlank lines lo e0 ≤ k → k < e0 →
      (stripStr (getLine lines k)).isEmpty = true := by
  intro e0
  induction e0 with
  | zero => intro k h1 h2; omega
  | succ e ih =>
    intro k h1 h2
    simp only [trimBlank] at h1
    split at h1
    · rename_i hcond
      simp only [Bool.and_eq_true, decide_eq_true_eq] at hcond
      by_cases hke : k < e
      · exact ih k h1 hke
      · have : k = e := by omega
        subst this
        exact hcond.2
    · omega

theorem hashNotAt {l : Str} (h : strStarts (chars "#") l = true) :
    strStarts (chars "@") l = false := by
  have h2 := strStarts_append_drop h
  rw [show (chars "#").length = 1 from rfl] at h2
  rw [h2]
  rfl

theorem firstMatch_cons_true {p : Str → Bool} {x : Str} (hx : p x = true)
    (rest : List Str) : firstMatch p (x :: rest) = some 0 := by
  simp [firstMatch, hx]

theorem getLine_mem {l : List Str} {k : Nat} (hk : k < l.length) :
    getLine l k ∈ l := by
  unfold getLine
  cases hq : l.get? k with
  | none =>
    rw [List.get?_eq_none] at hq
    omega
  | some a => exact List.get?_mem hq

theorem walkBack_block {p : Str → Bool} (Pre Block Post : List Str)
    (hblock : ∀ l ∈ Block, p l = true)
    (hstop : p (getLine Pre (Pre.length - 1)) = false) :
    walkBack p (Pre ++ Block ++ Post) (Pre.length + Block.length) =
      Pre.length := by
  apply walkBack_eq (Nat.le_add_right _ _)
  · intro k hk1 hk2
    have hk3 : k - Pre.length < Block.length := by omega
    have h1 : getLine (Pre ++ Block ++ Post) k =
        getLine Block (k - Pre.length) := by
      rw [List.append_assoc]
      have h2 := getLine_append_right Pre (Block ++ Post) (k - Pre.length)
      rw [show Pre.length + (k - Pre.length) = k by omega] at h2
      rw [h2]
      exact getLine_append_left Post hk3
    rw [h1]
    exact hblock _ (getLine_mem hk3)
  · by_cases hPre : Pre = []
    · left
      simp [hPre]
    · right
      have hlt : Pre.length - 1 < Pre.length := by
        cases Pre with
        | nil => exact absurd rfl hPre
        | cons a t => simp
      rw [List.append_assoc, getLine_append_left _ hlt]
      exact hstop

end RoundTripLemmas

section ClaimC1

/-- C1 (counterexample): with `foo` absent from the one-line buffer
`"x = 1\n"`, Remove after Inject yields `"x = 1\n\n"` — the original
plus one extra trailing newline — which differs from the original even
after blank-line collapsing (neither buffer holds a 3+ blank run). -/
theorem claim_C1_counterexample :
    (∀ l ∈ splitLines (chars "x = 1\n"),
      pyDefMatch (chars "foo") l = false) ∧
      (removeToolFromSource (fun _ => (true, []))
          (injectToolIntoPythonFile (fun _ => (true, [])) (chars "p")
            (chars "b") (chars "x = 1\n") (chars "foo")
            (chars "def foo():\n    return 1")).2.2
          (chars "foo") (chars ".py")).2.2 = chars "x = 1\n\n" ∧
      collapseBlank (chars "x = 1\n\n") ≠ collapseBlank (chars "x = 1\n") :=
  ⟨by decide, by rfl, by decide⟩

/-- C1 (amended): when the injected code is a single definition block —
optional comment lines, then optional decorator lines, then a header
matching the definition pattern, then body lines that are empty or more
deeply indented — and the name's pattern matches nothing in the original
buffer, Remove after Inject restores exactly the original's non-blank
lines, in order; the buffers differ only in blank lines (up to two extra
trailing blank lines, and collapsing of 3+ blank-line runs). -/
theorem claim_C1_roundtrip_modulo_blank_lines (v : Str → Bool × Str)
    (path backup source name code m m2 T R : Str)
    (cs ds : List Str) (hdr : Str) (body : List Str)
    (hinj : injectToolIntoPythonFile v path backup source name code =
      (true, m, T))
    (hrem : removeToolFromSource v T name (chars ".py") = (true, m2, R))
    (habsent : ∀ l ∈ splitLines source, pyDefMatch name l = false)
    (hcode : splitLines code = cs ++ ds ++ hdr :: body)
    (hcs : ∀ l ∈ cs, strStarts (chars "#") (stripStr l) = true ∧
      pyDefMatch name l = false)
    (hds : ∀ l ∈ ds, strStarts (chars "@") (stripStr l) = true ∧
      pyDefMatch name l = false)
    (hhdr : pyDefMatch name hdr = true)
    (hbody : ∀ l ∈ body, l = [] ∨
      (¬(indentOf l ≤ indentOf hdr) ∧ (stripStr l).isEmpty = false)) :
    neFilter (splitLines R) = neFilter (splitLines source) := by
  obtain ⟨hchk, hT⟩ := injectToolIntoPythonFile_success hinj
  set cmt : Str := chars "# Tool injected by universal-mcp-admin" with hcmtdef
  set P : List Str := splitLines (source ++ ['\n']) with hPdef
  set tp : List Str :=
    (if lastChar code = some '\n' ∨ code = [] then [[]] else []) with htpdef
  have hnlcmt : '\n' ∉ cmt := by rw [hcmtdef]; decide
  have hT2 : T = source ++ '\n' :: ('\n' ::
      (cmt ++ '\n' :: (code ++ ['\n']))) := by
    rw [hT, hcmtdef]
    simp only [List.append_assoc]
    rfl
  have hsplitT : splitLines T =
      P ++ [] :: cmt :: ((cs ++ ds ++ hdr :: body) ++ tp) := by
    rw [hT2, splitLines_append_newline, splitLines_newline,
      splitLines_noNl_prepend hnlcmt, splitLines_terminate code, hcode,
      ← htpdef, ← hPdef]
  have hview2 : splitLines T =
      (P ++ [] :: cmt :: cs) ++ (ds ++ (hdr :: (body ++ tp))) := by
    rw [hsplitT]
    simp [List.append_assoc]
  have hview3 : splitLines T =
      ((P ++ [[]]) ++ (cmt :: cs)) ++ (ds ++ (hdr :: (body ++ tp))) := by
    rw [hsplitT]
    simp [List.append_assoc]
  have hAview : splitLines T =
      ((P ++ [] :: cmt :: cs) ++ ds) ++ (hdr :: (body ++ tp)) := by
    rw [hsplitT]
    simp [List.append_assoc]
  have htpmem : ∀ l ∈ tp, l = [] := by
    intro l hl
    rw [htpdef] at hl
    by_cases hc : lastChar code = some '\n' ∨ code = []
    · rw [if_pos hc] at hl
      simpa using hl
    · rw [if_neg hc] at hl
      simp at hl
  have hPmem : ∀ l ∈ P, pyDefMatch name l = false := by
    intro l hl
    rw [hPdef, splitLines_terminate] at hl
    rcases List.mem_append.mp hl with h1 | h2
    · exact habsent l h1
    · have hl0 : l = [] := by
        by_cases hc : lastChar source = some '\n' ∨ source = []
        · rw [if_pos hc] at h2
          simpa using h2
        · rw [if_neg hc] at h2
          simp at h2
      rw [hl0]
      exact pyDefMatch_nil name
  have hcmtpred1 : strStarts (chars "#") (stripStr cmt) = true := by
    rw [hcmtdef]; rfl
  have hcmtpred2 : strStarts (chars "@") (stripStr cmt) = false := by
    rw [hcmtdef]; rfl
  have hcmtmatch : pyDefMatch name cmt = false := by
    rw [hcmtdef]; exact pyDefMatch_comment name
  have hpre : ∀ l ∈ (P ++ [] :: cmt :: cs) ++ ds,
      pyDefMatch name l = false := by
    intro l hl
    rcases List.mem_append.mp hl with h1 | h2
    · rcases List.mem_append.mp h1 with h3 | h4
      · exact hPmem l h3
      · rcases List.mem_cons.mp h4 with rfl | h5
        · exact pyDefMatch_nil name
        · rcases List.mem_cons.mp h5 with rfl | h6
          · exact hcmtmatch
          · exact (hcs l h6).2
    · exact (hds l h2).2
  have hm : firstMatch (pyDefMatch name) (splitLines T) =
      some (((P ++ [] :: cmt :: cs) ++ ds).length) := by
    rw [hAview, firstMatch_append_none hpre, firstMatch_cons_true hhdr]
    simp
  have hlenA : ((P ++ [] :: cmt :: cs) ++ ds).length =
      (P ++ [] :: cmt :: cs).length + ds.length := List.length_append _ _
  have hlenPcs : (P ++ [] :: cmt :: cs).length =
      (P ++ [[]]).length + (cmt :: cs).length := by
    simp
    omega
  have hstopA : stripStartsWith (chars "@")
      (getLine (P ++ [] :: cmt :: cs)
        ((P ++ [] :: cmt :: cs).length - 1)) = false := by
    rcases List.eq_nil_or_concat cs with rfl | ⟨cs2, c, rfl⟩
    · have hform : (P ++ [] :: cmt :: ([] : List Str)) =
          (P ++ [[]]) ++ [cmt] := by simp
      rw [hform]
      rw [show ((P ++ [[]]) ++ [cmt] : List Str).length - 1 =
        (P ++ [[]] : List Str).length + 0 by simp]
      rw [getLine_append_right]
      exact hcmtpred2
    · have hc2 := hcs c (by simp)
      have hform : (P ++ [] :: cmt :: (cs2 ++ [c])) =
          (P ++ [] :: cmt :: cs2) ++ [c] := by simp
      rw [List.concat_eq_append, hform]
      rw [show ((P ++ [] :: cmt :: cs2) ++ [c] : List Str).length - 1 =
        (P ++ [] :: cmt :: cs2 : List Str).length + 0 by simp]
      rw [getLine_append_right]
      exact hashNotAt hc2.1
  have hwb1 : walkBack (stripStartsWith (chars "@")) (splitLines T)
      (((P ++ [] :: cmt :: cs) ++ ds).length) =
      (P ++ [] :: cmt :: cs).length := by
    rw [hAview, hlenA]
    exact walkBack_block _ _ _ (fun l hl => (hds l hl).1) hstopA
  have hstopB : stripStartsWith (chars "#")
      (getLine (P ++ [[]]) ((P ++ [[]] : List Str).length - 1)) = false := by
    rw [show ((P ++ [[]] : List Str)).length - 1 = P.length + 0 by simp]
    rw [getLine_append_right]
    rfl
  have hblockB : ∀ l ∈ (cmt :: cs), stripStartsWith (chars "#") l = true := by
    intro l hl
    rcases List.mem_cons.mp hl with rfl | h2
    · exact hcmtpred1
    · exact (hcs l h2).1
  have hwb2 : walkBack (stripStartsWith (chars "#")) (splitLines T)
      ((P ++ [] :: cmt :: cs).length) = P.length + 1 := by
    rw [hview3, hlenPcs]
    rw [walkBack_block (P ++ [[]]) (cmt :: cs)
      (ds ++ (hdr :: (body ++ tp))) hblockB hstopB]
    simp
  have hgethdr : getLine (splitLines T)
      (((P ++ [] :: cmt :: cs) ++ ds).length) = hdr := by
    rw [hAview]
    have h := getLine_append_right ((P ++ [] :: cmt :: cs) ++ ds)
      (hdr :: (body ++ tp)) 0
    rw [Nat.add_zero] at h
    rw [h]
    rfl
  have hdropT : (splitLines T).drop
      (((P ++ [] :: cmt :: cs) ++ ds).length + 1) = body ++ tp := by
    rw [hAview]
    exact drop_append_cons _ _ _
  have hscan : indentEndScan (indentOf hdr) (body ++ tp)
      (((P ++ [] :: cmt :: cs) ++ ds).length + 1) =
      ((P ++ [] :: cmt :: cs) ++ ds).length + 1 + (body ++ tp).length := by
    apply indentEndScan_full
    intro l hl
    rcases List.mem_append.mp hl with h1 | h2
    · rcases hbody l h1 with rfl | hind
      · left; rfl
      · right; exact hind.1
    · left
      rw [htpmem l h2]
      rfl
  have hfind : findToolInSource T name (chars ".py") =
      some (P.length + 1,
        trimBlank (splitLines T)
          (((P ++ [] :: cmt :: cs) ++ ds).length + 1)
          (((P ++ [] :: cmt :: cs) ++ ds).length + 1 + (body ++ tp).length),
        joinLines (slice (splitLines T) (P.length + 1)
          (trimBlank (splitLines T)
            (((P ++ [] :: cmt :: cs) ++ ds).length + 1)
            (((P ++ [] :: cmt :: cs) ++ ds).length + 1 +
              (body ++ tp).length)))) := by
    have h0 : findToolInSource T name (chars ".py") =
        findPythonToolCore (pyDefMatch name) (splitLines T) := by
      simp [findToolInSource, findToolInLines, findPythonTool]
    rw [h0]
    simp only [findPythonToolCore, hm]
    rw [hwb1, hwb2, hgethdr, hdropT, hscan]
  set eE := trimBlank (splitLines T)
    (((P ++ [] :: cmt :: cs) ++ ds).length + 1)
    (((P ++ [] :: cmt :: cs) ++ ds).length + 1 + (body ++ tp).length)
    with heEdef
  have heGE : ((P ++ [] :: cmt :: cs) ++ ds).length + 1 ≤ eE := by
    rw [heEdef]
    exact trimBlank_ge (Nat.le_add_right _ _)
  have hlenT : (splitLines T).length =
      ((P ++ [] :: cmt :: cs) ++ ds).length + 1 + (body ++ tp).length := by
    rw [hAview]
    simp
    omega
  have hdropE : ∀ x ∈ (splitLines T).drop eE, x = [] := by
    intro x hx
    obtain ⟨n, hn⟩ := List.mem_iff_get?.mp hx
    rw [List.get?_drop] at hn
    have hkl : eE + n < (splitLines T).length := by
      by_contra hcon
      rw [List.get?_eq_none.mpr (by omega)] at hn
      simp at hn
    have hblank := @trimBlank_blank (splitLines T)
      (((P ++ [] :: cmt :: cs) ++ ds).length + 1)
      (((P ++ [] :: cmt :: cs) ++ ds).length + 1 + (body ++ tp).length)
      (eE + n) (by rw [← heEdef]; omega) (by omega)
    have hgx : getLine (splitLines T) (eE + n) = x := by
      unfold getLine
      rw [hn]
      rfl
    rw [hgx] at hblank
    have hx2 : x ∈ body ++ tp := by
      have h1 : ((splitLines T).drop
          (((P ++ [] :: cmt :: cs) ++ ds).length + 1)).get?
          (eE + n - (((P ++ [] :: cmt :: cs) ++ ds).length + 1)) = some x := by
        rw [List.get?_drop]
        rw [show ((P ++ [] :: cmt :: cs) ++ ds).length + 1 +
          (eE + n - (((P ++ [] :: cmt :: cs) ++ ds).length + 1)) = eE + n by
            omega]
        exact hn
      rw [hdropT] at h1
      exact List.get?_mem h1
    rcases List.mem_append.mp hx2 with h1 | h2
    · rcases hbody x h1 with rfl | hind
      · rfl
      · rw [hblank] at hind
        simp at hind
    · exact htpmem x h2
  have htake : (splitLines T).take (P.length + 1) = P ++ [[]] := by
    rw [hsplitT]
    rw [take_append_plus P ([] :: cmt :: ((cs ++ ds ++ hdr :: body) ++ tp)) 1]
    rfl
  have hRval := removeToolFromSource_success hfind hrem
  have hMnl : ∀ x ∈ (splitLines T).take (P.length + 1) ++
      (splitLines T).drop eE, '\n' ∉ x := by
    intro x hx
    rcases List.mem_append.mp hx with h | h
    · exact splitLines_mem_noNl (List.take_subset _ _ h)
    · exact splitLines_mem_noNl (List.drop_subset _ _ h)
  rw [hRval, collapseBlank_neFilter, join_split hMnl, neFilter_dropFinalEmpty]
  rw [htake]
  have hfil : neFilter ((P ++ [[]]) ++ (splitLines T).drop eE) =
      neFilter P := by
    unfold neFilter
    rw [List.filter_append, List.filter_append]
    have h1 : List.filter (fun l => !l.isEmpty) ((splitLines T).drop eE) =
        [] := by
      apply List.filter_eq_nil.mpr
      intro a ha
      rw [hdropE a ha]
      simp
    rw [h1]
    simp
  rw [hfil, hPdef, splitLines_terminate]
  unfold neFilter
  rw [List.filter_append]
  have h2 : List.filter (fun l => !l.isEmpty)
      (if lastChar source = some '\n' ∨ source = [] then [[]] else []
        : List Str) = [] := by
    by_cases hc : lastChar source = some '\n' ∨ source = []
    · rw [if_pos hc]
      rfl
    · rw [if_neg hc]
      rfl
  rw [h2, List.append_nil]

/-- Witness for C1: a concrete round trip through a decorated definition
restores the non-blank lines of the original buffer. -/
theorem claim_C1_roundtrip_modulo_blank_lines_witness :
    neFilter (splitLines (chars "x = 1\n\n")) =
      neFilter (splitLines (chars "x = 1\n")) :=
  claim_C1_roundtrip_modulo_blank_lines (fun _ => (true, [])) (chars "p")
    (chars "b") (chars "x = 1\n") (chars "foo")
    (chars "@mcp.tool()\ndef foo():\n    return 1")
    (injectedMsg (chars "foo") (chars "b")) (removedMsg (chars "foo") 3 7)
    (chars "x = 1\n\n\n# Tool injected by universal-mcp-admin\n@mcp.tool()\ndef foo():\n    return 1\n")
    (chars "x = 1\n\n") [] [chars "@mcp.tool()"] (chars "def foo():")
    [chars "    return 1"] (by rfl) (by rfl) (by decide) (by rfl)
    (by decide) (by decide) (by rfl) (by decide)

end ClaimC1

end MCP
